import Mathlib

/-
  Verification development for scheduler/cupsfilter.c (the cupsfilter program):
  escape_options, exec_filter, exec_filters and open_pipe.

  Conventions of the embedding.
  * A C string is the list of its characters before the terminating NUL.
  * An options array (num_options, options) is a list of cups_option_t.
  * C int values (descriptors, process identifiers, wait statuses) are Int; the
    only arithmetic on them, the difference of two process identifiers in
    compare_pids, cannot overflow.
  * System calls act on an explicit descriptor table.  What the operating system
    decides (whether pipe, fcntl and fork succeed, which children wait reports)
    is an explicit argument of the embedding.
  * A filter chain is the list of its mime_filter_t records, which are distinct
    records, as in every chain that main builds; storing a pid in the cost of a
    record and adding the record to the array pids is adding the record with that
    cost.
  * The environment vector of the filters and the messages written to stderr are
    left out: no property stated here depends on them.
-/

namespace CupsFilter

/-- A C string, as the list of its characters before the terminating NUL. -/
abbrev CStr := List Char

/-- Modelled from the spec: the declaration of cups_option_t is in the CUPS headers,
outside cupsfilter.c.  One job option, a name and a string value, the two fields that
escape_options reads. -/
structure cups_option_t where
  name : CStr
  value : CStr
deriving DecidableEq, Repr

/-! ### escape_options (lines 317-369) -/

/-- The test of line 357, strchr on the four characters backslash, space, tab and
newline.  The value pointer never rests on the terminating NUL inside the loop,
so the NUL that strchr would also match does not occur. -/
def needs_escape (c : Char) : Bool :=
  c == '\\' || c == ' ' || c == '\t' || c == '\n'

/-- The inner loop of lines 355-361: append the value to the buffer, writing a
backslash before each character that needs one. -/
def copy_value : CStr → CStr → CStr
  | buf, [] => buf
  | buf, c :: vptr =>
    copy_value (if needs_escape c then (buf ++ ['\\']) ++ [c] else buf ++ [c]) vptr

/-- The copy loop of lines 343-362.  The buffer argument is what has been written
between s and sptr, so the test sptr > s is the test that it is not empty. -/
def escape_loop : List cups_option_t → CStr → CStr
  | [], buf => buf
  | option :: rest, buf =>
    if option.name = "copies".toList then escape_loop rest buf
    else
      let buf1 := if 0 < buf.length then buf ++ [' '] else buf
      let buf2 := buf1 ++ option.name
      let buf3 := buf2 ++ ['=']
      escape_loop rest (copy_value buf3 option.value)

/-- The string returned by escape_options. -/
def escape_options (options : List cups_option_t) : CStr :=
  escape_loop options []

/-- The size passed to malloc by escape_options (lines 334-337), in exact
arithmetic. -/
def escape_options_bytes (options : List cups_option_t) : Nat :=
  options.foldl (fun bytes o => bytes + (2 * (o.name.length + o.value.length) + 2)) 1

/-! ### Reference definitions for escape_options, following the specification -/

/-- Reference escaping of a value: one backslash before each backslash, space, tab
and newline, every other character unchanged. -/
def esc (value : CStr) : CStr :=
  value.flatMap (fun c => if c = '\\' ∨ c = ' ' ∨ c = '\t' ∨ c = '\n' then ['\\', c] else [c])

/-- Reference token list: name, an equals sign and the escaped value, for the options
not named copies, in input order. -/
def option_tokens (options : List cups_option_t) : List CStr :=
  (options.filter (fun o => decide (o.name ≠ "copies".toList))).map
    (fun o => o.name ++ ['='] ++ esc o.value)

/-- Reference definition of the option string: the tokens joined by one space. -/
def escape_options_spec (options : List cups_option_t) : CStr :=
  [' '].intercalate (option_tokens options)

/-- Reader of an option string, following the specification: the string is cut at
each space that is not escaped, where a backslash escapes the character after it.
The first argument is the token being read. -/
def split_tokens_from : CStr → CStr → List CStr
  | cur, [] => [cur]
  | cur, '\\' :: c :: rest => split_tokens_from (cur ++ ['\\', c]) rest
  | cur, ' ' :: rest => cur :: split_tokens_from [] rest
  | cur, c :: rest => split_tokens_from (cur ++ [c]) rest

/-- The tokens of an option string. -/
def split_tokens (s : CStr) : List CStr := split_tokens_from [] s

/-- A token as escape_options writes it for an option whose name has no space. -/
def IsOptionToken (tok : CStr) : Prop :=
  ∃ name value, ' ' ∉ name ∧ tok = name ++ ['='] ++ esc value

/-! ### Descriptor tables -/

/-- The access mode given to open. -/
inductive OpenMode where
  | O_RDONLY
  | O_WRONLY
  | O_RDWR
deriving DecidableEq, Repr

/-- What an open descriptor refers to: a file that was already open, under the given
number, when exec_filters was entered; the read or the write end of the pipe that
exec_filters created for the output of stage k; or the null device. -/
inductive FileObj where
  | inherited (fd : Nat)
  | pipeRead (k : Nat)
  | pipeWrite (k : Nat)
  | devNull (mode : OpenMode)
deriving DecidableEq, Repr

/-- The descriptor table of a process: entry n tells what descriptor n refers to, or
none when descriptor n is closed.  Descriptors past the end of the list are closed.
Descriptor flags (close-on-exec, O_NDELAY) are not part of the table. -/
abbrev FdTable := List (Option FileObj)

/-- The table on entry to exec_filters: descriptor n is open exactly when entry n of
the argument is true, and then refers to the file the process already had there. -/
def initial_table (entry : List Bool) : FdTable :=
  entry.enum.map (fun p => if p.2 then some (FileObj.inherited p.1) else none)

/-- What descriptor fd refers to; none for a closed or negative descriptor. -/
def fd_lookup (t : FdTable) (fd : Int) : Option FileObj :=
  if fd < 0 then none else t.getD fd.toNat none

/-- The lowest descriptor that is not open, the one POSIX has open, dup and pipe
return. -/
def lowest_free (t : FdTable) : Nat :=
  t.findIdx (fun e => e.isNone)

/-- Bind the lowest free descriptor to the given object; returns the descriptor and
the new table. -/
def fd_install (t : FdTable) (o : FileObj) : Nat × FdTable :=
  let fd := lowest_free t
  (fd, if fd < t.length then t.set fd (some o) else t ++ [some o])

/-- The close system call; closing a negative or closed descriptor changes nothing. -/
def sys_close (t : FdTable) (fd : Int) : FdTable :=
  if fd < 0 then t else t.set fd.toNat none

/-- The dup system call: the lowest free descriptor becomes a duplicate of fd; when fd
is not open the call fails and the table is unchanged. -/
def sys_dup (t : FdTable) (fd : Int) : FdTable :=
  match fd_lookup t fd with
  | some o => (fd_install t o).2
  | none => t

/-- The call open("/dev/null", mode), taken to succeed: the lowest free descriptor is
bound to the null device. -/
def sys_open_null (t : FdTable) (mode : OpenMode) : FdTable :=
  (fd_install t (FileObj.devNull mode)).2

/-- Number of open descriptors. -/
def open_count (t : FdTable) : Nat :=
  t.countP (fun e => e.isSome)

/-- The pipe an entry of the table belongs to, if it is a pipe end. -/
def pipe_id : Option FileObj → Option Nat
  | some (FileObj.pipeRead k) => some k
  | some (FileObj.pipeWrite k) => some k
  | _ => none

/-- The pipes of which the process holds at least one end open, without repetition. -/
def pipes_open (t : FdTable) : List Nat :=
  (t.filterMap pipe_id).dedup

/-! ### exec_filter (lines 376-463), the child after fork -/

/-- Lines 425-432: standard input of the child. -/
def child_stdin (t : FdTable) (infd : Int) : FdTable :=
  if infd ≠ 0 then
    let c := sys_close t 0
    if infd > 0 then sys_dup c infd else sys_open_null c OpenMode.O_RDONLY
  else t

/-- Lines 434-441: standard output of the child. -/
def child_stdout (t : FdTable) (outfd : Int) : FdTable :=
  if outfd ≠ 1 then
    let c := sys_close t 1
    if outfd > 0 then sys_dup c outfd else sys_open_null c OpenMode.O_WRONLY
  else t

/-- Lines 443-449: descriptors 3 and 4 of the child. -/
def child_aux (t : FdTable) : FdTable :=
  let t3 := sys_open_null (sys_close t 3) OpenMode.O_RDWR
  sys_open_null (sys_close t3 4) OpenMode.O_RDWR

/-- The descriptor table of the child of exec_filter when it reaches execve, from the
table it inherits at fork and the two descriptor arguments. -/
def exec_filter_child (t : FdTable) (infd outfd : Int) : FdTable :=
  child_aux (child_stdout (child_stdin t infd) outfd)

/-! ### The parent process: system calls with a log -/

/-- A descriptor system call made by the parent: close, with whether the descriptor
was open when it was closed, or a successful pipe, with the two descriptors. -/
inductive SysEvent where
  | close (fd : Int) (was_open : Bool)
  | pipe (rfd wfd : Nat)
deriving DecidableEq, Repr

/-- One line of the log: the call and the descriptor table right after it. -/
structure LogEntry where
  event : SysEvent
  after : FdTable
deriving DecidableEq, Repr

/-- The parent process as far as descriptors go: its table and the log of its calls. -/
structure Proc where
  fdt : FdTable
  log : List LogEntry
deriving DecidableEq, Repr

/-- The parent calls close. -/
def p_close (p : Proc) (fd : Int) : Proc :=
  let t := sys_close p.fdt fd
  { fdt := t, log := p.log ++ [⟨SysEvent.close fd (fd_lookup p.fdt fd).isSome, t⟩] }

/-- The parent calls pipe and the call succeeds: the two lowest free descriptors
become the read end and the write end of pipe k. -/
def p_pipe (p : Proc) (k : Nat) : Nat × Nat × Proc :=
  let a := fd_install p.fdt (FileObj.pipeRead k)
  let b := fd_install a.2 (FileObj.pipeWrite k)
  (a.1, b.1, { fdt := b.2, log := p.log ++ [⟨SysEvent.pipe a.1 b.1, b.2⟩] })

/-- What happens inside one call of open_pipe: everything succeeds, pipe fails, or
one of the two fcntl calls fails. -/
inductive PipeOutcome where
  | ok
  | pipe_fails
  | fcntl_read_fails
  | fcntl_write_fails
deriving DecidableEq, Repr

/-- The function open_pipe (lines 665-711), called for the pipe of stage k: returns its
result, the two entries it leaves in fds, and the process. -/
def open_pipe (oc : PipeOutcome) (k : Nat) (p : Proc) : Int × (Int × Int) × Proc :=
  match oc with
  | PipeOutcome.pipe_fails => (-1, (-1, -1), p)
  | PipeOutcome.ok =>
    let r := p_pipe p k
    (0, ((r.1 : Int), (r.2.1 : Int)), r.2.2)
  | PipeOutcome.fcntl_read_fails =>
    let r := p_pipe p k
    (-1, (-1, -1), p_close (p_close r.2.2 r.1) r.2.1)
  | PipeOutcome.fcntl_write_fails =>
    let r := p_pipe p k
    (-1, (-1, -1), p_close (p_close r.2.2 r.1) r.2.1)

/-! ### exec_filters (lines 470-658) -/

/-- Modelled from the spec: the declaration of mime_filter_t is in mime.h, outside
cupsfilter.c.  A FilterSpec has a cost and the name of the program to run; these are
the two fields that exec_filters reads and writes (the source and destination types,
NULL in the initialiser of GZIPFilter, are not used by it). -/
structure mime_filter_t where
  cost : Int
  filter : CStr
deriving DecidableEq, Repr

/-- The function compare_pids (lines 300-310). -/
def compare_pids (a b : mime_filter_t) : Int := a.cost - b.cost

/-- Modelled from the spec: the cups_array_t functions belong to the CUPS library, not
to cupsfilter.c.  The array of executed filters is the tracked set of the
ProcessTracker; a record is registered by adding it. -/
def cupsArrayAdd (a : List mime_filter_t) (e : mime_filter_t) : List mime_filter_t := a ++ [e]

/-- Modelled from the spec: number of records in the tracked set. -/
def cupsArrayCount (a : List mime_filter_t) : Nat := a.length

/-- Modelled from the spec: look an identity up in the tracked set; records are
compared with compare_pids. -/
def cupsArrayFind (a : List mime_filter_t) (key : mime_filter_t) : Option mime_filter_t :=
  a.find? (fun e => compare_pids key e == 0)

/-- Modelled from the spec: remove the record found from the tracked set. -/
def cupsArrayRemove (a : List mime_filter_t) (e : mime_filter_t) : List mime_filter_t :=
  a.eraseP (fun x => compare_pids e x == 0)

/-- Modelled from the spec: cupsGetOption belongs to the CUPS library, not to
cupsfilter.c; it returns the value of the option with the given name, or NULL when
there is none. -/
def cupsGetOption (name : CStr) (options : List cups_option_t) : Option CStr :=
  (options.find? (fun o => decide (o.name = name))).map (fun o => o.value)

/-- What exec_filters takes from its environment: the ServerBin global, the result of
cupsUser, what happens in the open_pipe call made for each stage, and the value
fork returns to the parent in the exec_filter call made for each stage. -/
structure Env where
  ServerBin : CStr
  cupsUser : CStr
  pipe_outcome : Nat → PipeOutcome
  fork_pid : Nat → Int

/-- Record of one call of exec_filter: its arguments (the environment vector left
out), the descriptor table of the parent at the call, which is the table the child
starts from, and the value returned to the parent. -/
structure ExecCall where
  program : CStr
  argv : List (Option CStr)
  infd : Int
  outfd : Int
  fdt : FdTable
  pid : Int
deriving DecidableEq, Repr

/-- The local state of exec_filters during the spawn loop: the parent process, the
array filterfds, the index current, the argument vector, the array pids, and the
calls of exec_filter made so far. -/
structure LoopState where
  proc : Proc
  filterfds : (Int × Int) × (Int × Int)
  current : Nat
  argv : List (Option CStr)
  pids : List mime_filter_t
  calls : List ExecCall
deriving DecidableEq, Repr

/-- The pair filterfds[i]. -/
def slot (f : (Int × Int) × (Int × Int)) (i : Nat) : Int × Int :=
  if i = 0 then f.1 else f.2

/-- Assignment of the pair filterfds[i]. -/
def set_slot (f : (Int × Int) × (Int × Int)) (i : Nat) (s : Int × Int) :
    (Int × Int) × (Int × Int) :=
  if i = 0 then (s, f.2) else (f.1, s)

/-- The C operator of logical negation on an index. -/
def c_not (n : Nat) : Nat := if n = 0 then 1 else 0

/-- Lines 572-576: the program path, cut to the 1023 characters that fit the buffer. -/
def resolve_program (ServerBin : CStr) (filter : mime_filter_t) : CStr :=
  if filter.filter.head? = some '/' then filter.filter.take 1023
  else (ServerBin ++ "/filter/".toList ++ filter.filter).take 1023

/-- Lines 578-585: close the pipe of the slot that is about to be reused.  Both
assignments of the source write entry 0 of the slot; entry 1 keeps its value. -/
def close_previous (st : LoopState) : LoopState :=
  if (slot st.filterfds (c_not st.current)).2 > 1 then
    let p1 := p_close st.proc (slot st.filterfds (1 - st.current)).1
    let p2 := p_close p1 (slot st.filterfds (1 - st.current)).2
    let f1 := set_slot st.filterfds (1 - st.current) (-1, (slot st.filterfds (1 - st.current)).2)
    let f2 := set_slot f1 (1 - st.current) (-1, (slot f1 (1 - st.current)).2)
    { st with proc := p2, filterfds := f2 }
  else st

/-- Lines 587-590: a new pipe when there is a next filter (the result of open_pipe is
not looked at), standard output otherwise. -/
def prepare_output (env : Env) (stage : Nat) (has_next : Bool) (st : LoopState) : LoopState :=
  if has_next then
    let r := open_pipe (env.pipe_outcome stage) stage st.proc
    { st with proc := r.2.2, filterfds := set_slot st.filterfds (1 - st.current) r.2.1 }
  else
    { st with filterfds :=
        set_slot st.filterfds (1 - st.current) ((slot st.filterfds (1 - st.current)).1, 1) }

/-- Lines 592-593: the call of exec_filter for a stage, seen from the parent. -/
def exec_filter (env : Env) (stage : Nat) (program : CStr) (st : LoopState) : ExecCall :=
  { program := program
    argv := st.argv
    infd := (slot st.filterfds st.current).1
    outfd := (slot st.filterfds (1 - st.current)).2
    fdt := st.proc.fdt
    pid := env.fork_pid stage }

/-- Lines 570-593: the loop body up to and including the call of exec_filter. -/
def loop_body (env : Env) (stage : Nat) (filter : mime_filter_t) (has_next : Bool)
    (st : LoopState) : LoopState :=
  let st2 := prepare_output env stage has_next (close_previous st)
  { st2 with
    calls := st2.calls ++ [exec_filter env stage (resolve_program env.ServerBin filter) st2] }

/-- Lines 595-605 and the loop increment, when the pid is positive: the filter is
added to pids with the pid in its cost, argv[6] is cleared, current flips. -/
def loop_advance (env : Env) (stage : Nat) (filter : mime_filter_t) (st : LoopState) :
    LoopState :=
  { st with
    pids := cupsArrayAdd st.pids { filter with cost := env.fork_pid stage }
    argv := st.argv.set 6 none
    current := 1 - st.current }

/-- The spawn loop of lines 566-606 from the given stage on; a pid that is not
positive leaves the loop. -/
def exec_filters_loop (env : Env) : Nat → List mime_filter_t → LoopState → LoopState
  | _, [], st => st
  | stage, filter :: rest, st =>
    if env.fork_pid stage > 0 then
      exec_filters_loop env (stage + 1) rest
        (loop_advance env stage filter (loop_body env stage filter (!rest.isEmpty) st))
    else loop_body env stage filter (!rest.isEmpty) st

/-- Lines 612-622: close the pipes that remain. -/
def close_remaining (st : LoopState) : LoopState :=
  let p1 :=
    if (slot st.filterfds 0).2 > 1 then
      p_close (p_close st.proc (slot st.filterfds 0).1) (slot st.filterfds 0).2
    else st.proc
  let p2 :=
    if (slot st.filterfds 1).2 > 1 then
      p_close (p_close p1 (slot st.filterfds 1).1) (slot st.filterfds 1).2
    else p1
  { st with proc := p2 }

/-- Lines 531-541: the argument vector argv[0..7] before the loop; argv[4] is the result
of cupsGetOption, replaced by "1" when it is NULL. -/
def initial_argv (env : Env) (filename title : CStr) (options : List cups_option_t) :
    List (Option CStr) :=
  [some "cupsfilter".toList, some "0".toList, some env.cupsUser, some title,
    some ((cupsGetOption "copies".toList options).getD "1".toList),
    some (escape_options options), some filename, none]

/-- The state of exec_filters on entry to the spawn loop (lines 559-564). -/
def initial_state (env : Env) (entry : List Bool) (filename title : CStr)
    (options : List cups_option_t) : LoopState :=
  { proc := { fdt := initial_table entry, log := [] }
    filterfds := ((-1, -1), (-1, -1))
    current := 0
    argv := initial_argv env filename title options
    pids := []
    calls := [] }

/-- The function exec_filters up to the wait loop (lines 507-622): the state when the
wait loop is reached. -/
def exec_filters_spawn (env : Env) (entry : List Bool) (filters : List mime_filter_t)
    (filename title : CStr) (options : List cups_option_t) : LoopState :=
  close_remaining
    (exec_filters_loop env 0 filters (initial_state env entry filename title options))

/-- The state of the wait loop: the array pids and retval. -/
structure WaitState where
  pids : List mime_filter_t
  retval : Int
deriving DecidableEq, Repr

/-- One round of the wait loop (lines 632-654) for what wait reports: the pid it
returns and the status it stores.  POSIX makes the status 0 exactly for a child
that exited with code 0. -/
def wait_step (ws : WaitState) (c : Int × Int) : WaitState :=
  if c.1 < 0 then ws
  else
    match cupsArrayFind ws.pids { cost := c.1, filter := [] } with
    | some filter =>
      { pids := cupsArrayRemove ws.pids filter
        retval := if c.2 ≠ 0 then 1 else ws.retval }
    | none => ws

/-- The wait loop of lines 630-655 over the sequence of reports of wait; the result is
none when the reports run out while pids is not empty, in which case the loop does
not end. -/
def wait_loop : WaitState → List (Int × Int) → Option WaitState
  | ws, [] => if cupsArrayCount ws.pids > 0 then none else some ws
  | ws, c :: cs => if cupsArrayCount ws.pids > 0 then wait_loop (wait_step ws c) cs else some ws

/-- The function exec_filters: its return value for the given sequence of reports of
wait, none when the wait loop does not end. -/
def exec_filters (env : Env) (entry : List Bool) (filters : List mime_filter_t)
    (filename title : CStr) (options : List cups_option_t)
    (completions : List (Int × Int)) : Option Int :=
  let st := exec_filters_spawn env entry filters filename title options
  (wait_loop { pids := st.pids, retval := 0 } completions).map (fun ws => ws.retval)

/-! ### Derived views of the spawn loop, used to state and prove its properties -/

/-- The calls of exec_filter that the spawn loop makes from the given stage and state
on, in order. -/
def loop_calls (env : Env) : Nat → List mime_filter_t → LoopState → List ExecCall
  | _, [], _ => []
  | stage, filter :: rest, st =>
    let st2 := prepare_output env stage (!rest.isEmpty) (close_previous st)
    exec_filter env stage (resolve_program env.ServerBin filter) st2 ::
      (if env.fork_pid stage > 0 then
        loop_calls env (stage + 1) rest
          (loop_advance env stage filter (loop_body env stage filter (!rest.isEmpty) st))
      else [])

/-- The records that the spawn loop adds to pids from the given stage on, in order. -/
def loop_pids (env : Env) : Nat → List mime_filter_t → List mime_filter_t
  | _, [] => []
  | stage, filter :: rest =>
    if env.fork_pid stage > 0 then
      { filter with cost := env.fork_pid stage } :: loop_pids env (stage + 1) rest
    else []

/-- The slot holds the two descriptors of pipe k, both open in the table. -/
def Holds (t : FdTable) (s : Int × Int) (k : Nat) : Prop :=
  ∃ r w : Nat, s = ((r : Int), (w : Int)) ∧
    fd_lookup t r = some (FileObj.pipeRead k) ∧ fd_lookup t w = some (FileObj.pipeWrite k)

/-- Two consecutive calls of exec_filter are joined by pipe j: the output descriptor
of the first is the write end and the input descriptor of the second is the read end
of pipe j, and both ends are open in the parent at both calls. -/
def Joined (j : Nat) (c1 c2 : ExecCall) : Prop :=
  ∃ r w : Nat, c1.outfd = (w : Int) ∧ c2.infd = (r : Int) ∧
    fd_lookup c1.fdt r = some (FileObj.pipeRead j) ∧
    fd_lookup c1.fdt w = some (FileObj.pipeWrite j) ∧
    fd_lookup c2.fdt r = some (FileObj.pipeRead j) ∧
    fd_lookup c2.fdt w = some (FileObj.pipeWrite j)

/-- A list of calls, the first being the call of stage i, is wired: each call is
joined to the next one by the pipe of its stage, and the last one writes to
descriptor 1. -/
def Wired : Nat → List ExecCall → Prop
  | _, [] => True
  | _, [c] => c.outfd = 1
  | i, c1 :: c2 :: rest => Joined i c1 c2 ∧ Wired (i + 1) (c2 :: rest)

/-- The state at the head of the loop for stage i when every earlier open_pipe and
exec_filter call succeeded: slot current holds the pipe of stage i - 1 and the other
slot holds the pipe of stage i - 2, as far as these stages exist. -/
def WiringInv (i : Nat) (st : LoopState) : Prop :=
  st.current ≤ 1 ∧
  (i = 0 → slot st.filterfds st.current = (-1, -1)) ∧
  (i ≤ 1 → slot st.filterfds (1 - st.current) = (-1, -1)) ∧
  (1 ≤ i → Holds st.proc.fdt (slot st.filterfds st.current) (i - 1)) ∧
  (2 ≤ i → Holds st.proc.fdt (slot st.filterfds (1 - st.current)) (i - 2))

/-- The table is the entry table plus the pipes of the list: for each (r, w, k) in the
list descriptors r and w are the two ends of pipe k and were closed on entry, every
other descriptor is as on entry, and no pipe is listed twice. -/
def TableIs (t0 t : FdTable) (P : List (Int × Int × Nat)) : Prop :=
  (∀ e ∈ P, fd_lookup t e.1 = some (FileObj.pipeRead e.2.2) ∧
      fd_lookup t e.2.1 = some (FileObj.pipeWrite e.2.2) ∧
      fd_lookup t0 e.1 = none ∧ fd_lookup t0 e.2.1 = none) ∧
  (∀ fd : Int, (∀ e ∈ P, fd ≠ e.1 ∧ fd ≠ e.2.1) → fd_lookup t fd = fd_lookup t0 fd) ∧
  (P.map (fun e => e.2.2)).Nodup

/-- The pipe a slot of filterfds accounts for: the exit code of exec_filters closes a
slot exactly when its second entry is greater than 1. -/
def owned (s : Int × Int) (k : Nat) : List (Int × Int × Nat) :=
  if 1 < s.2 then [(s.1, s.2, k)] else []

/-- Every pipe end in the table belongs to one of the listed pipes. -/
def PipesWithin (t : FdTable) (ids : List Nat) : Prop :=
  ∀ (fd : Int) (k : Nat), pipe_id (fd_lookup t fd) = some k → k ∈ ids

/-- No descriptor of the table is a pipe end. -/
def Pristine (t : FdTable) : Prop :=
  ∀ fd : Int, pipe_id (fd_lookup t fd) = none

/-- Every close in the log was issued on an open descriptor, and after every call of
the log at most two pipes were open. -/
def LogOK (log : List LogEntry) : Prop :=
  ∀ e ∈ log, (∀ fd b, e.event = SysEvent.close fd b → b = true) ∧
    (pipes_open e.after).length ≤ 2

/-- Every descriptor returned by pipe in the log is greater than 1. -/
def PipesAbove (log : List LogEntry) : Prop :=
  ∀ e ∈ log, ∀ r w, e.event = SysEvent.pipe r w → 1 < r ∧ 1 < w

/-- The parent process has a sound log and its table is the entry table plus the
listed pipes. -/
def Acc (t0 : FdTable) (p : Proc) (Q : List (Int × Int × Nat)) : Prop :=
  LogOK p.log ∧ TableIs t0 p.fdt Q

/-- The state of the spawn loop as far as descriptors go: the parent holds exactly the
pipes its two slots account for, on top of what it had on entry. -/
def LeakInv (t0 : FdTable) (i : Nat) (st : LoopState) : Prop :=
  st.current ≤ 1 ∧
  ∃ kc ko, Acc t0 st.proc
      (owned (slot st.filterfds st.current) kc ++ owned (slot st.filterfds (1 - st.current)) ko) ∧
    ∀ e ∈ owned (slot st.filterfds st.current) kc ++ owned (slot st.filterfds (1 - st.current)) ko,
      e.2.2 < i

/-! ### Sample data for the concrete instances -/

/-- An environment in which every open_pipe call succeeds and the stages get the
process identifiers 100, 101, 102 and so on. -/
def sample_env : Env :=
  { ServerBin := "/usr/lib/cups".toList
    cupsUser := "lp".toList
    pipe_outcome := fun _ => PipeOutcome.ok
    fork_pid := fun i => 100 + (i : Int) }

/-- A chain of three filters. -/
def sample_filters : List mime_filter_t :=
  [⟨33, "texttops".toList⟩, ⟨66, "pstops".toList⟩, ⟨50, "/opt/filter/pstoraster".toList⟩]

/-- A job with a copies option and an option whose value has a space. -/
def sample_options : List cups_option_t :=
  [⟨"copies".toList, "2".toList⟩, ⟨"media".toList, "a4 tray".toList⟩]

/-- Descriptors 0, 1 and 2 open on entry. -/
def sample_entry : List Bool := [true, true, true]

/-- The check of PipesAbove as a computation. -/
def pipes_above_check (log : List LogEntry) : Bool :=
  log.all (fun e =>
    match e.event with
    | SysEvent.pipe r w => decide (1 < r) && decide (1 < w)
    | SysEvent.close _ _ => true)

/-! ### escape_options: the extent of its writes -/

/-- The extent of the writes of the copy loop of escape_options: one more than the
highest index of the buffer that has been written, 0 when nothing has been written.
The buffer argument is what lies between s and sptr, the last argument the extent so
far.  The writes are the separating space (line 349), the name with the NUL that
strcpy puts after it (line 351), the equals sign (line 353), the characters of the
value with their backslashes (lines 355-361) and the terminating NUL (line 364). -/
def escape_loop_extent : List cups_option_t → CStr → Nat → Nat
  | [], buf, ext => max ext (buf.length + 1)
  | option :: rest, buf, ext =>
    if option.name = "copies".toList then escape_loop_extent rest buf ext
    else
      let buf1 := if 0 < buf.length then buf ++ [' '] else buf
      let ext1 := max ext buf1.length
      let ext2 := max ext1 (buf1.length + option.name.length + 1)
      let buf2 := buf1 ++ option.name
      let buf3 := buf2 ++ ['=']
      let ext3 := max ext2 buf3.length
      let buf4 := copy_value buf3 option.value
      escape_loop_extent rest buf4 (max ext3 buf4.length)

/-- The number of bytes of its buffer that escape_options writes, the terminating NUL
included. -/
def escape_options_extent (options : List cups_option_t) : Nat :=
  escape_loop_extent options [] 0

/-! ### main: the choice of the filter chain (lines 249-292) -/

/-- The global GZIPFilter of lines 53-59: cost 0, program gziptoany. -/
def GZIPFilter : mime_filter_t :=
  { cost := 0, filter := "gziptoany".toList }

/-- Modelled from the spec: cupsArrayInsert belongs to the CUPS library, not to
cupsfilter.c; it puts the record in front of the chain, so that the decompression
filter runs first. -/
def cupsArrayInsert (a : List mime_filter_t) (e : mime_filter_t) : List mime_filter_t :=
  e :: a

/-- What main does after it has looked at the types: it leaves with an exit status, or
it hands a filter chain to exec_filters. -/
inductive MainStep where
  | exit (status : Int)
  | run (filters : List mime_filter_t)
deriving DecidableEq, Repr

/-- Lines 249-292 of main.  The arguments are what the MIME library returns: the source
type found by mimeFileType (none for NULL) with the compression flag it stores, the
destination type found by mimeType (none for NULL), and the function mimeFilter, which
gives the chain from one type to another (none for NULL).  A type is a pointer to a
record of the MIME database and is represented by a number; src == dst compares
the pointers. -/
def main_filters (src : Option Nat) (compression : Int) (dst : Option Nat)
    (mimeFilter : Nat → Nat → Option (List mime_filter_t)) : MainStep :=
  match src with
  | none => MainStep.exit 1
  | some s =>
    match dst with
    | none => MainStep.exit 1
    | some d =>
      if s = d then MainStep.run (cupsArrayAdd [] GZIPFilter)
      else
        match mimeFilter s d with
        | none => MainStep.exit 1
        | some filters =>
          if compression ≠ 0 then MainStep.run (cupsArrayInsert filters GZIPFilter)
          else MainStep.run filters

/-- The exit status of main from line 249 on: the status of an early exit, or what
exec_filters returns for the chain chosen (none when its wait loop does not end). -/
def main_status (env : Env) (entry : List Bool) (src : Option Nat) (compression : Int)
    (dst : Option Nat) (mimeFilter : Nat → Nat → Option (List mime_filter_t))
    (filename title : CStr) (options : List cups_option_t)
    (completions : List (Int × Int)) : Option Int :=
  match main_filters src compression dst mimeFilter with
  | MainStep.exit status => some status
  | MainStep.run filters => exec_filters env entry filters filename title options completions

/-! ### Theorems on escape_options -/

theorem copy_value_eq (value buf : CStr) : copy_value buf value = buf ++ esc value := by
  induction value generalizing buf with
  | nil => simp [copy_value, esc]
  | cons c vs ih =>
    rw [copy_value, ih]
    by_cases h : needs_escape c = true
    · have h2 : c = '\\' ∨ c = ' ' ∨ c = '\t' ∨ c = '\n' := by
        simpa [needs_escape, or_assoc] using h
      simp [esc, h, h2, List.flatMap_cons]
    · have h2 : ¬ (c = '\\' ∨ c = ' ' ∨ c = '\t' ∨ c = '\n') := by
        simpa [needs_escape, or_assoc] using h
      simp [esc, h, h2, List.flatMap_cons]

theorem option_tokens_skip (o : cups_option_t) (rest : List cups_option_t)
    (h : o.name = "copies".toList) : option_tokens (o :: rest) = option_tokens rest := by
  unfold option_tokens
  rw [List.filter_cons_of_neg (by simpa using h)]

theorem option_tokens_keep (o : cups_option_t) (rest : List cups_option_t)
    (h : o.name ≠ "copies".toList) :
    option_tokens (o :: rest) = (o.name ++ ['='] ++ esc o.value) :: option_tokens rest := by
  unfold option_tokens
  rw [List.filter_cons_of_pos (by simpa using h), List.map_cons]

theorem escape_loop_eq (options : List cups_option_t) (buf : CStr) :
    escape_loop options buf =
      if option_tokens options = [] then buf
      else if buf = [] then [' '].intercalate (option_tokens options)
      else buf ++ ' ' :: [' '].intercalate (option_tokens options) := by
  induction options generalizing buf with
  | nil => simp [escape_loop, option_tokens]
  | cons o rest ih =>
    by_cases hc : o.name = "copies".toList
    · rw [escape_loop, if_pos hc, ih, option_tokens_skip o rest hc]
    · rw [escape_loop, if_neg hc, option_tokens_keep o rest hc]
      simp only [copy_value_eq, ih]
      by_cases hr : option_tokens rest = []
      · by_cases hb : buf = []
        · simp [hr, hb, List.intercalate]
        · have : 0 < buf.length := List.length_pos.mpr hb
          simp [hr, hb, this, List.intercalate]
      · obtain ⟨t, ts, hts⟩ := List.exists_cons_of_ne_nil hr
        by_cases hb : buf = []
        · simp [hts, hb, List.intercalate, List.intersperse]
        · have : 0 < buf.length := List.length_pos.mpr hb
          simp [hts, hb, this, List.intercalate, List.intersperse]

theorem escape_options_refines (options : List cups_option_t) :
    escape_options options = escape_options_spec options := by
  unfold escape_options escape_options_spec
  rw [escape_loop_eq]
  by_cases h : option_tokens options = []
  · simp [h, List.intercalate]
  · simp [h]


theorem split_plain (c : Char) (cur rest : CStr) (h1 : c ≠ '\\') (h2 : c ≠ ' ') :
    split_tokens_from cur (c :: rest) = split_tokens_from (cur ++ [c]) rest := by
  cases rest with
  | nil => simp [split_tokens_from, h1, h2]
  | cons d r => rw [split_tokens_from] <;> simp_all

theorem split_pair (c : Char) (cur rest : CStr) :
    split_tokens_from cur ('\\' :: c :: rest) = split_tokens_from (cur ++ ['\\', c]) rest := by
  rw [split_tokens_from]

theorem split_space (cur rest : CStr) :
    split_tokens_from cur (' ' :: rest) = cur :: split_tokens_from [] rest := by
  rw [split_tokens_from]

theorem split_name_aux (n : Nat) : ∀ (name : CStr), name.length ≤ n → ' ' ∉ name →
    ∀ cur rest, split_tokens_from cur (name ++ '=' :: rest)
      = split_tokens_from (cur ++ name ++ ['=']) rest := by
  induction n using Nat.strong_induction_on with
  | _ n ih =>
    intro name hlen hsp cur rest
    match name, hlen, hsp with
    | [], _, _ => simpa using split_plain '=' cur rest (by decide) (by decide)
    | [c], _, hsp =>
      by_cases hc : c = '\\'
      · subst hc
        simpa using split_pair '=' cur rest
      · have hs : c ≠ ' ' := by intro h; apply hsp; simp [h]
        have := split_plain c cur ('=' :: rest) hc hs
        simp only [List.singleton_append, this]
        simpa using split_plain '=' (cur ++ [c]) rest (by decide) (by decide)
    | c :: d :: name2, hlen, hsp =>
      by_cases hc : c = '\\'
      · subst hc
        have h2 : ' ' ∉ name2 := by intro h; apply hsp; simp [h]
        have := ih (n - 2) (by simp at hlen; omega) name2 (by simp at hlen; omega) h2
          (cur ++ ['\\', d]) rest
        simp only [List.cons_append, split_pair, this]
        simp
      · have hs : c ≠ ' ' := by intro h; apply hsp; simp [h]
        have h2 : ' ' ∉ d :: name2 := by intro h; apply hsp; simp [List.mem_cons] at h ⊢; tauto
        have := ih (n - 1) (by simp at hlen; omega) (d :: name2) (by simp at hlen ⊢; omega) h2
          (cur ++ [c]) rest
        rw [List.cons_append, split_plain c cur _ hc hs, this]
        simp

theorem split_esc (value cur rest : CStr) :
    split_tokens_from cur (esc value ++ rest) = split_tokens_from (cur ++ esc value) rest := by
  induction value generalizing cur with
  | nil => simp [esc]
  | cons c vs ih =>
    have hcons : esc (c :: vs) = esc [c] ++ esc vs := by simp [esc, List.flatMap_cons]
    by_cases h : c = '\\' ∨ c = ' ' ∨ c = '\t' ∨ c = '\n'
    · have h1 : esc [c] = ['\\', c] := by simp [esc, h]
      rw [hcons, h1]
      simp only [List.cons_append, List.nil_append, split_pair, ih]
      simp
    · have h1 : esc [c] = [c] := by simp [esc, h]
      rw [hcons, h1]
      have hb : c ≠ '\\' := fun e => h (Or.inl e)
      have hs : c ≠ ' ' := fun e => h (Or.inr (Or.inl e))
      simp only [List.cons_append, List.nil_append, split_plain c cur _ hb hs, ih]
      simp

theorem split_token_then (tok : CStr) (h : IsOptionToken tok) (cur rest : CStr) :
    split_tokens_from cur (tok ++ rest) = split_tokens_from (cur ++ tok) rest := by
  obtain ⟨name, value, hsp, rfl⟩ := h
  have := split_name_aux name.length name le_rfl hsp cur (esc value ++ rest)
  have e1 : name ++ ['='] ++ esc value ++ rest = name ++ '=' :: (esc value ++ rest) := by simp
  rw [e1, this, split_esc]
  simp only [List.append_assoc]

theorem split_intercalate (toks : List CStr) (h : ∀ t ∈ toks, IsOptionToken t)
    (hne : toks ≠ []) : split_tokens ([' '].intercalate toks) = toks := by
  unfold split_tokens
  induction toks with
  | nil => exact absurd rfl hne
  | cons t ts ih =>
    cases ts with
    | nil =>
      have := split_token_then t (h t (by simp)) [] []
      simpa [List.intercalate, split_tokens_from] using this
    | cons t2 ts2 =>
      have h1 := split_token_then t (h t (by simp)) [] (' ' :: [' '].intercalate (t2 :: ts2))
      have h2 := ih (fun x hx => h x (List.mem_cons_of_mem _ hx)) (by simp)
      have h3 : [' '].intercalate (t :: t2 :: ts2) = t ++ ' ' :: [' '].intercalate (t2 :: ts2) := by
        simp [List.intercalate, List.intersperse]
      rw [h3, h1, split_space, h2]
      simp

theorem name_eq_of_starts {α : Type} (x : α) (e : List α) :
    ∀ (p n : List α), x ∉ p → x ∉ n → p ++ [x] <+: n ++ x :: e → p = n := by
  intro p
  induction p with
  | nil =>
    intro n _ hn h
    cases n with
    | nil => rfl
    | cons b n2 =>
      simp only [List.nil_append, List.cons_append, List.cons_prefix_cons] at h
      exact absurd (by simp [h.1]) hn
  | cons a p2 ih =>
    intro n hp hn h
    cases n with
    | nil =>
      simp only [List.nil_append, List.cons_append, List.cons_prefix_cons] at h
      exact absurd (by simp [h.1]) hp
    | cons b n2 =>
      simp only [List.cons_append, List.cons_prefix_cons] at h
      rw [h.1, ih n2 (fun hx => hp (List.mem_cons_of_mem _ hx))
        (fun hx => hn (List.mem_cons_of_mem _ hx)) h.2]

/-! ## Lemmas on descriptor tables -/

theorem fd_lookup_nat (t : FdTable) (n : Nat) : fd_lookup t (n : Int) = t.getD n none := by
  simp [fd_lookup]

theorem fd_lookup_neg (t : FdTable) (fd : Int) (h : fd < 0) : fd_lookup t fd = none := by
  simp [fd_lookup, h]

theorem getD_set_none (t : FdTable) (a b : Nat) :
    (t.set a none).getD b none = if b = a then none else t.getD b none := by
  simp only [List.getD_eq_getElem?_getD, List.getElem?_set]
  by_cases h : a = b
  · subst h
    by_cases h2 : a < t.length <;> simp [h2]
  · have h3 : ¬ b = a := fun e => h e.symm
    simp [h, h3]

theorem lookup_close (t : FdTable) (a b : Int) :
    fd_lookup (sys_close t a) b = if b = a then none else fd_lookup t b := by
  unfold sys_close fd_lookup
  by_cases ha : a < 0
  · by_cases hb : b < 0
    · simp [ha, hb]
    · have : b ≠ a := by omega
      simp [ha, hb, this]
  · by_cases hb : b < 0
    · simp [ha, hb]
    · simp only [ha, hb, if_false, getD_set_none]
      have : (b.toNat = a.toNat) ↔ b = a := by omega
      simp [this]

theorem lowest_free_le (t : FdTable) : lowest_free t ≤ t.length :=
  List.findIdx_le_length _

theorem getD_lowest_free (t : FdTable) : t.getD (lowest_free t) none = none := by
  induction t with
  | nil => simp [lowest_free]
  | cons e t ih =>
    cases e with
    | none => simp [lowest_free, List.findIdx_cons]
    | some o =>
      simp only [lowest_free, List.findIdx_cons] at ih ⊢
      simpa using ih

theorem lookup_lowest_free (t : FdTable) : fd_lookup t (lowest_free t : Int) = none := by
  rw [fd_lookup_nat, getD_lowest_free]

theorem getD_below_lowest_free (t : FdTable) (n : Nat) (h : n < lowest_free t) :
    t.getD n none ≠ none := by
  induction t generalizing n with
  | nil => simp [lowest_free] at h
  | cons e t ih =>
    cases e with
    | none => simp [lowest_free, List.findIdx_cons] at h
    | some o =>
      cases n with
      | zero => simp
      | succ m =>
        have h2 : m < lowest_free t := by
          simp only [lowest_free, List.findIdx_cons] at h ⊢
          simpa using h
        simpa using ih m h2

theorem lowest_free_eq (t : FdTable) (n : Nat) (hfree : t.getD n none = none)
    (hbelow : ∀ m, m < n → t.getD m none ≠ none) : lowest_free t = n := by
  rcases Nat.lt_trichotomy (lowest_free t) n with h | h | h
  · exact absurd (getD_lowest_free t) (hbelow _ h)
  · exact h
  · exact absurd hfree (getD_below_lowest_free t n h)

theorem lowest_free_cons_some (x : FileObj) (t : FdTable) :
    lowest_free (some x :: t) = lowest_free t + 1 := by
  simp [lowest_free, List.findIdx_cons]

theorem lowest_free_cons_none (t : FdTable) : lowest_free (none :: t) = 0 := by
  simp [lowest_free, List.findIdx_cons]

theorem fd_install_cons_some (x o : FileObj) (t : FdTable) :
    (fd_install (some x :: t) o).2 = some x :: (fd_install t o).2 := by
  unfold fd_install
  simp only [lowest_free_cons_some, List.length_cons, Nat.add_lt_add_iff_right, List.set_cons_succ]
  by_cases h : lowest_free t < t.length <;> simp [h]

theorem getD_install (t : FdTable) (o : FileObj) (b : Nat) :
    (fd_install t o).2.getD b none = if b = lowest_free t then some o else t.getD b none := by
  induction t generalizing b with
  | nil =>
    cases b with
    | zero => simp [fd_install, lowest_free]
    | succ m => simp [fd_install, lowest_free]
  | cons e t ih =>
    cases e with
    | none =>
      cases b with
      | zero => simp [fd_install, lowest_free_cons_none]
      | succ m => simp [fd_install, lowest_free_cons_none]
    | some x =>
      rw [fd_install_cons_some, lowest_free_cons_some]
      cases b with
      | zero => simp
      | succ m =>
        have := ih m
        simp only [List.getD_eq_getElem?_getD, List.getElem?_cons_succ] at this ⊢
        rw [this]
        simp

theorem fd_install_fst (t : FdTable) (o : FileObj) : (fd_install t o).1 = lowest_free t := rfl

theorem lookup_install (t : FdTable) (o : FileObj) (b : Int) :
    fd_lookup (fd_install t o).2 b
      = if b = (lowest_free t : Int) then some o else fd_lookup t b := by
  by_cases hb : b < 0
  · have : b ≠ (lowest_free t : Int) := by omega
    simp [fd_lookup, hb, this]
  · obtain ⟨n, rfl⟩ := Int.eq_ofNat_of_zero_le (not_lt.mp hb)
    rw [fd_lookup_nat, fd_lookup_nat, getD_install]
    simp

theorem lookup_open_null (t : FdTable) (mode : OpenMode) (b : Int) :
    fd_lookup (sys_open_null t mode) b
      = if b = (lowest_free t : Int) then some (FileObj.devNull mode) else fd_lookup t b :=
  lookup_install t _ b

theorem lookup_dup (t : FdTable) (fd : Int) (o : FileObj) (h : fd_lookup t fd = some o) (b : Int) :
    fd_lookup (sys_dup t fd) b = if b = (lowest_free t : Int) then some o else fd_lookup t b := by
  unfold sys_dup
  rw [h]
  exact lookup_install t o b

theorem lowest_free_of_lookup (t : FdTable) (n : Nat) (hfree : fd_lookup t (n : Int) = none)
    (hbelow : ∀ m : Nat, m < n → fd_lookup t (m : Int) ≠ none) : lowest_free t = n := by
  apply lowest_free_eq
  · simpa [fd_lookup_nat] using hfree
  · intro m hm
    simpa [fd_lookup_nat] using hbelow m hm
/-! ### Theorems on the child side of exec_filter -/

theorem install_keeps_occupied (t : FdTable) (o : FileObj) (b : Int)
    (h : fd_lookup t b ≠ none) : fd_lookup (fd_install t o).2 b = fd_lookup t b := by
  rw [lookup_install]
  have : b ≠ (lowest_free t : Int) := by
    intro e
    rw [e] at h
    exact h (lookup_lowest_free t)
  simp [this]

theorem open_null_keeps_occupied (t : FdTable) (mode : OpenMode) (b : Int)
    (h : fd_lookup t b ≠ none) : fd_lookup (sys_open_null t mode) b = fd_lookup t b :=
  install_keeps_occupied t _ b h

theorem dup_keeps_occupied (t : FdTable) (fd b : Int)
    (h : fd_lookup t b ≠ none) : fd_lookup (sys_dup t fd) b = fd_lookup t b := by
  unfold sys_dup
  cases hl : fd_lookup t fd with
  | none => rfl
  | some o => exact install_keeps_occupied t o b h

theorem lowest_free_after_close0 (t : FdTable) : lowest_free (sys_close t 0) = 0 := by
  apply lowest_free_of_lookup
  · simpa using lookup_close t 0 0
  · intro m hm
    omega

theorem lowest_free_after_close1 (t : FdTable) (h : fd_lookup t 0 ≠ none) :
    lowest_free (sys_close t 1) = 1 := by
  apply lowest_free_of_lookup
  · simpa using lookup_close t 1 1
  · intro m hm
    have hm0 : m = 0 := by omega
    subst hm0
    have := lookup_close t 1 0
    simp only [show ¬ ((0 : Int) = 1) by decide, if_false] at this
    simpa [this] using h

/-- Standard input after lines 425-432, for a positive descriptor that is open. -/
theorem child_stdin_fd0 (t : FdTable) (infd : Int) (hin : 0 < infd → fd_lookup t infd ≠ none) :
    fd_lookup (child_stdin t infd) 0 =
      if infd = 0 then fd_lookup t 0
      else if 0 < infd then fd_lookup t infd
      else some (FileObj.devNull OpenMode.O_RDONLY) := by
  unfold child_stdin
  by_cases h0 : infd = 0
  · simp [h0]
  · by_cases hp : 0 < infd
    · obtain ⟨o, ho⟩ := Option.ne_none_iff_exists'.mp (hin hp)
      have hc : fd_lookup (sys_close t 0) infd = some o := by
        rw [lookup_close]
        simp [h0, ho]
      simp only [h0, hp, ne_eq, not_false_eq_true, if_true, gt_iff_lt, if_false]
      rw [lookup_dup _ _ o hc, lowest_free_after_close0, ho]
      simp
    · simp only [h0, hp, ne_eq, not_false_eq_true, if_true, gt_iff_lt, if_false]
      rw [lookup_open_null, lowest_free_after_close0]
      simp

/-- Lines 425-432 change no descriptor other than 0. -/
theorem child_stdin_other (t : FdTable) (infd b : Int) (hb : b ≠ 0) :
    fd_lookup (child_stdin t infd) b = fd_lookup t b := by
  unfold child_stdin
  have hb2 : b ≠ ((0 : Nat) : Int) := by simpa using hb
  by_cases h0 : infd = 0
  · simp [h0]
  · by_cases hp : 0 < infd
    · simp only [h0, hp, ne_eq, not_false_eq_true, if_true, gt_iff_lt]
      unfold sys_dup
      cases hl : fd_lookup (sys_close t 0) infd with
      | none => simp [lookup_close, hb]
      | some o =>
        simp only
        rw [lookup_install, lowest_free_after_close0, lookup_close]
        simp [hb]
    · simp only [h0, hp, ne_eq, not_false_eq_true, if_true, gt_iff_lt, if_false]
      rw [lookup_open_null, lowest_free_after_close0, lookup_close]
      simp [hb]

theorem child_stdout_keeps0 (t : FdTable) (outfd : Int) (h : fd_lookup t 0 ≠ none) :
    fd_lookup (child_stdout t outfd) 0 = fd_lookup t 0 := by
  unfold child_stdout
  have hc : fd_lookup (sys_close t 1) 0 = fd_lookup t 0 := by
    rw [lookup_close]
    simp
  have hc2 : fd_lookup (sys_close t 1) 0 ≠ none := by rw [hc]; exact h
  by_cases h1 : outfd = 1
  · simp [h1]
  · by_cases hp : 0 < outfd
    · simp only [h1, hp, ne_eq, not_false_eq_true, if_true, gt_iff_lt]
      rw [dup_keeps_occupied _ _ _ hc2, hc]
    · simp only [h1, hp, ne_eq, not_false_eq_true, if_true, gt_iff_lt, if_false]
      rw [open_null_keeps_occupied _ _ _ hc2, hc]

/-- Standard output after lines 434-441, when descriptor 0 is open at that point. -/
theorem child_stdout_fd1 (t : FdTable) (outfd : Int) (h0 : fd_lookup t 0 ≠ none)
    (hout : 1 < outfd → fd_lookup t outfd ≠ none) :
    fd_lookup (child_stdout t outfd) 1 =
      if outfd = 1 then fd_lookup t 1
      else if 1 < outfd then fd_lookup t outfd
      else some (FileObj.devNull OpenMode.O_WRONLY) := by
  unfold child_stdout
  by_cases h1 : outfd = 1
  · simp [h1]
  · by_cases hp : 0 < outfd
    · have hp1 : 1 < outfd := by omega
      obtain ⟨o, ho⟩ := Option.ne_none_iff_exists'.mp (hout hp1)
      have hc : fd_lookup (sys_close t 1) outfd = some o := by
        rw [lookup_close]
        simp [h1, ho]
      simp only [h1, hp, hp1, ne_eq, not_false_eq_true, if_true, gt_iff_lt, if_false]
      rw [lookup_dup _ _ o hc, lowest_free_after_close1 t h0, ho]
      simp
    · have hp1 : ¬ 1 < outfd := by omega
      simp only [h1, hp, hp1, ne_eq, not_false_eq_true, if_true, gt_iff_lt, if_false]
      rw [lookup_open_null, lowest_free_after_close1 t h0]
      simp

theorem child_aux_keeps (t : FdTable) (b : Int) (hb : b = 0 ∨ b = 1)
    (h : fd_lookup t b ≠ none) : fd_lookup (child_aux t) b = fd_lookup t b := by
  unfold child_aux
  have h3 : fd_lookup (sys_close t 3) b = fd_lookup t b := by
    rw [lookup_close]
    have : b ≠ 3 := by omega
    simp [this]
  have h3n : fd_lookup (sys_close t 3) b ≠ none := by rw [h3]; exact h
  have h3o := open_null_keeps_occupied (sys_close t 3) OpenMode.O_RDWR b h3n
  have h4 : fd_lookup (sys_close (sys_open_null (sys_close t 3) OpenMode.O_RDWR) 4) b
      = fd_lookup t b := by
    rw [lookup_close]
    have : b ≠ 4 := by omega
    simp [this, h3o, h3]
  have h4n : fd_lookup (sys_close (sys_open_null (sys_close t 3) OpenMode.O_RDWR) 4) b ≠ none := by
    rw [h4]; exact h
  simp only []
  rw [open_null_keeps_occupied _ _ _ h4n, h4]

/-! ### Basic theorems on the spawn loop -/

theorem c_not_eq (n : Nat) : c_not n = 1 - n := by
  unfold c_not
  by_cases h : n = 0
  · simp [h]
  · simp only [h, if_false]
    omega

theorem loop_nil (env : Env) (stage : Nat) (st : LoopState) :
    exec_filters_loop env stage [] st = st := by
  rw [exec_filters_loop]

theorem loop_cons_pos (env : Env) (stage : Nat) (f : mime_filter_t) (rest : List mime_filter_t)
    (st : LoopState) (h : 0 < env.fork_pid stage) :
    exec_filters_loop env stage (f :: rest) st =
      exec_filters_loop env (stage + 1) rest
        (loop_advance env stage f (loop_body env stage f (!rest.isEmpty) st)) := by
  rw [exec_filters_loop]
  simp [h]

theorem loop_cons_neg (env : Env) (stage : Nat) (f : mime_filter_t) (rest : List mime_filter_t)
    (st : LoopState) (h : ¬ 0 < env.fork_pid stage) :
    exec_filters_loop env stage (f :: rest) st = loop_body env stage f (!rest.isEmpty) st := by
  rw [exec_filters_loop]
  simp [h]

theorem close_previous_calls (st : LoopState) : (close_previous st).calls = st.calls := by
  unfold close_previous
  split <;> rfl

theorem close_previous_pids (st : LoopState) : (close_previous st).pids = st.pids := by
  unfold close_previous
  split <;> rfl

theorem close_previous_argv (st : LoopState) : (close_previous st).argv = st.argv := by
  unfold close_previous
  split <;> rfl

theorem close_previous_current (st : LoopState) : (close_previous st).current = st.current := by
  unfold close_previous
  split <;> rfl

theorem prepare_output_calls (env : Env) (i : Nat) (b : Bool) (st : LoopState) :
    (prepare_output env i b st).calls = st.calls := by
  unfold prepare_output
  split <;> rfl

theorem prepare_output_pids (env : Env) (i : Nat) (b : Bool) (st : LoopState) :
    (prepare_output env i b st).pids = st.pids := by
  unfold prepare_output
  split <;> rfl

theorem prepare_output_argv (env : Env) (i : Nat) (b : Bool) (st : LoopState) :
    (prepare_output env i b st).argv = st.argv := by
  unfold prepare_output
  split <;> rfl

theorem prepare_output_current (env : Env) (i : Nat) (b : Bool) (st : LoopState) :
    (prepare_output env i b st).current = st.current := by
  unfold prepare_output
  split <;> rfl

theorem loop_body_calls (env : Env) (i : Nat) (f : mime_filter_t) (b : Bool) (st : LoopState) :
    (loop_body env i f b st).calls =
      st.calls ++ [exec_filter env i (resolve_program env.ServerBin f)
        (prepare_output env i b (close_previous st))] := by
  simp [loop_body, prepare_output_calls, close_previous_calls]

theorem loop_body_pids (env : Env) (i : Nat) (f : mime_filter_t) (b : Bool) (st : LoopState) :
    (loop_body env i f b st).pids = st.pids := by
  simp [loop_body, prepare_output_pids, close_previous_pids]

theorem loop_body_argv (env : Env) (i : Nat) (f : mime_filter_t) (b : Bool) (st : LoopState) :
    (loop_body env i f b st).argv = st.argv := by
  simp [loop_body, prepare_output_argv, close_previous_argv]

theorem loop_body_current (env : Env) (i : Nat) (f : mime_filter_t) (b : Bool) (st : LoopState) :
    (loop_body env i f b st).current = st.current := by
  simp [loop_body, prepare_output_current, close_previous_current]

theorem loop_body_proc (env : Env) (i : Nat) (f : mime_filter_t) (b : Bool) (st : LoopState) :
    (loop_body env i f b st).proc = (prepare_output env i b (close_previous st)).proc := rfl

theorem loop_body_filterfds (env : Env) (i : Nat) (f : mime_filter_t) (b : Bool)
    (st : LoopState) :
    (loop_body env i f b st).filterfds
      = (prepare_output env i b (close_previous st)).filterfds := rfl

/-- The calls recorded by the loop are the calls already made followed by loop_calls. -/
theorem loop_calls_eq (env : Env) (fs : List mime_filter_t) :
    ∀ (i : Nat) (st : LoopState),
      (exec_filters_loop env i fs st).calls = st.calls ++ loop_calls env i fs st := by
  induction fs with
  | nil => intro i st; simp [loop_nil, loop_calls]
  | cons f rest ih =>
    intro i st
    by_cases h : 0 < env.fork_pid i
    · rw [loop_cons_pos env i f rest st h, ih, loop_calls]
      simp [h, loop_advance, loop_body_calls]
    · rw [loop_cons_neg env i f rest st h, loop_calls]
      simp [h, loop_body_calls]

/-- The array pids after the loop is the array before it followed by loop_pids. -/
theorem loop_pids_eq (env : Env) (fs : List mime_filter_t) :
    ∀ (i : Nat) (st : LoopState),
      (exec_filters_loop env i fs st).pids = st.pids ++ loop_pids env i fs := by
  induction fs with
  | nil => intro i st; simp [loop_nil, loop_pids]
  | cons f rest ih =>
    intro i st
    by_cases h : 0 < env.fork_pid i
    · rw [loop_cons_pos env i f rest st h, ih, loop_pids]
      simp [h, loop_advance, loop_body_pids, cupsArrayAdd]
    · rw [loop_cons_neg env i f rest st h, loop_pids]
      simp [h, loop_body_pids]

theorem close_remaining_calls (st : LoopState) : (close_remaining st).calls = st.calls := rfl

theorem close_remaining_pids (st : LoopState) : (close_remaining st).pids = st.pids := rfl

theorem spawn_calls (env : Env) (entry : List Bool) (fs : List mime_filter_t)
    (filename title : CStr) (options : List cups_option_t) :
    (exec_filters_spawn env entry fs filename title options).calls
      = loop_calls env 0 fs (initial_state env entry filename title options) := by
  unfold exec_filters_spawn
  rw [close_remaining_calls, loop_calls_eq]
  simp [initial_state]

theorem spawn_pids (env : Env) (entry : List Bool) (fs : List mime_filter_t)
    (filename title : CStr) (options : List cups_option_t) :
    (exec_filters_spawn env entry fs filename title options).pids = loop_pids env 0 fs := by
  unfold exec_filters_spawn
  rw [close_remaining_pids, loop_pids_eq]
  simp [initial_state]

/-! ### Spawn count, argument vectors, and the first stage -/

theorem loop_calls_all (env : Env) (fs : List mime_filter_t) :
    ∀ (i : Nat) (st : LoopState), (∀ j, j < fs.length → 0 < env.fork_pid (i + j)) →
      (loop_calls env i fs st).map (fun c => (c.program, c.pid))
        = (fs.enumFrom i).map (fun p => (resolve_program env.ServerBin p.2, env.fork_pid p.1)) := by
  induction fs with
  | nil => intro i st _; simp [loop_calls]
  | cons f rest ih =>
    intro i st h
    have h0 : 0 < env.fork_pid i := by simpa using h 0 (by simp)
    have hrest : ∀ j, j < rest.length → 0 < env.fork_pid (i + 1 + j) := by
      intro j hj
      have := h (j + 1) (by simpa using hj)
      rwa [show i + 1 + j = i + (j + 1) by omega]
    rw [loop_calls]
    simp only [h0, gt_iff_lt, if_true, List.map_cons, List.enumFrom_cons, ih (i + 1) _ hrest]
    simp [exec_filter]

theorem loop_calls_upto (env : Env) (k : Nat) :
    ∀ (fs : List mime_filter_t) (i : Nat) (st : LoopState), k < fs.length →
      (∀ j, j < k → 0 < env.fork_pid (i + j)) → env.fork_pid (i + k) ≤ 0 →
      (loop_calls env i fs st).map (fun c => (c.program, c.pid))
        = ((fs.take (k + 1)).enumFrom i).map
            (fun p => (resolve_program env.ServerBin p.2, env.fork_pid p.1)) := by
  induction k with
  | zero =>
    intro fs i st hk _ hfail
    cases fs with
    | nil => simp at hk
    | cons f rest =>
      have h0 : ¬ 0 < env.fork_pid i := by simpa using hfail
      rw [loop_calls]
      simp [h0, exec_filter]
  | succ k ih =>
    intro fs i st hk hok hfail
    cases fs with
    | nil => simp at hk
    | cons f rest =>
      have h0 : 0 < env.fork_pid i := by simpa using hok 0 (by omega)
      have hk2 : k < rest.length := by simpa using hk
      have hok2 : ∀ j, j < k → 0 < env.fork_pid (i + 1 + j) := by
        intro j hj
        have := hok (j + 1) (by omega)
        rwa [show i + 1 + j = i + (j + 1) by omega]
      have hfail2 : env.fork_pid (i + 1 + k) ≤ 0 := by
        rwa [show i + 1 + k = i + (k + 1) by omega]
      rw [loop_calls]
      simp only [h0, gt_iff_lt, if_true, List.map_cons, List.take_succ_cons, List.enumFrom_cons,
        ih rest (i + 1) _ hk2 hok2 hfail2]
      simp [exec_filter]

theorem loop_pids_all (env : Env) (fs : List mime_filter_t) :
    ∀ (i : Nat), (∀ j, j < fs.length → 0 < env.fork_pid (i + j)) →
      loop_pids env i fs
        = (fs.enumFrom i).map (fun p => { p.2 with cost := env.fork_pid p.1 }) := by
  induction fs with
  | nil => intro i _; simp [loop_pids]
  | cons f rest ih =>
    intro i h
    have h0 : 0 < env.fork_pid i := by simpa using h 0 (by simp)
    have hrest : ∀ j, j < rest.length → 0 < env.fork_pid (i + 1 + j) := by
      intro j hj
      have := h (j + 1) (by simpa using hj)
      rwa [show i + 1 + j = i + (j + 1) by omega]
    rw [loop_pids]
    simp only [h0, gt_iff_lt, if_true, List.map_cons, List.enumFrom_cons, ih (i + 1) hrest]

theorem loop_pids_upto (env : Env) (k : Nat) :
    ∀ (fs : List mime_filter_t) (i : Nat), k < fs.length →
      (∀ j, j < k → 0 < env.fork_pid (i + j)) → env.fork_pid (i + k) ≤ 0 →
      loop_pids env i fs
        = ((fs.take k).enumFrom i).map (fun p => { p.2 with cost := env.fork_pid p.1 }) := by
  induction k with
  | zero =>
    intro fs i hk _ hfail
    cases fs with
    | nil => simp at hk
    | cons f rest =>
      have h0 : ¬ 0 < env.fork_pid i := by simpa using hfail
      rw [loop_pids]
      simp [h0]
  | succ k ih =>
    intro fs i hk hok hfail
    cases fs with
    | nil => simp at hk
    | cons f rest =>
      have h0 : 0 < env.fork_pid i := by simpa using hok 0 (by omega)
      have hk2 : k < rest.length := by simpa using hk
      have hok2 : ∀ j, j < k → 0 < env.fork_pid (i + 1 + j) := by
        intro j hj
        have := hok (j + 1) (by omega)
        rwa [show i + 1 + j = i + (j + 1) by omega]
      have hfail2 : env.fork_pid (i + 1 + k) ≤ 0 := by
        rwa [show i + 1 + k = i + (k + 1) by omega]
      rw [loop_pids]
      simp only [h0, gt_iff_lt, if_true, List.map_cons, List.take_succ_cons, List.enumFrom_cons,
        ih rest (i + 1) hk2 hok2 hfail2]

theorem set6_idem (a : List (Option CStr)) : (a.set 6 none).set 6 none = a.set 6 none := by
  simp

theorem loop_calls_argv (env : Env) (fs : List mime_filter_t) :
    ∀ (i : Nat) (st : LoopState), (∀ j, j < fs.length → 0 < env.fork_pid (i + j)) →
      (loop_calls env i fs st).map (fun c => c.argv)
        = match fs with
          | [] => []
          | _ :: rest => st.argv :: List.replicate rest.length (st.argv.set 6 none) := by
  induction fs with
  | nil => intro i st _; simp [loop_calls]
  | cons f rest ih =>
    intro i st h
    have h0 : 0 < env.fork_pid i := by simpa using h 0 (by simp)
    have hrest : ∀ j, j < rest.length → 0 < env.fork_pid (i + 1 + j) := by
      intro j hj
      have := h (j + 1) (by simpa using hj)
      rwa [show i + 1 + j = i + (j + 1) by omega]
    rw [loop_calls]
    simp only [h0, gt_iff_lt, if_true, List.map_cons, ih (i + 1) _ hrest]
    cases rest with
    | nil => simp [exec_filter, prepare_output_argv, close_previous_argv]
    | cons g rest2 =>
      simp [exec_filter, prepare_output_argv, close_previous_argv, loop_advance, loop_body_argv,
        List.replicate_succ]

/-! ### Slots of filterfds -/

theorem slot_set_same (f : (Int × Int) × (Int × Int)) (j : Nat) (s : Int × Int) :
    slot (set_slot f j s) j = s := by
  unfold slot set_slot
  by_cases h : j = 0 <;> simp [h]

theorem slot_set_other (f : (Int × Int) × (Int × Int)) (c : Nat) (s : Int × Int) (hc : c ≤ 1) :
    slot (set_slot f (1 - c) s) c = slot f c := by
  unfold slot set_slot
  have : c = 0 ∨ c = 1 := by omega
  rcases this with h | h <;> simp [h]

theorem one_sub_one_sub (c : Nat) (hc : c ≤ 1) : 1 - (1 - c) = c := by omega

theorem one_sub_le (c : Nat) : 1 - c ≤ 1 := by omega

theorem close_previous_slot_current (st : LoopState) (hc : st.current ≤ 1) :
    slot (close_previous st).filterfds st.current = slot st.filterfds st.current := by
  unfold close_previous
  split
  · simp only [slot_set_other _ _ _ hc]
  · rfl

theorem prepare_output_slot_current (env : Env) (i : Nat) (b : Bool) (st : LoopState)
    (hc : st.current ≤ 1) :
    slot (prepare_output env i b st).filterfds st.current = slot st.filterfds st.current := by
  unfold prepare_output
  split
  · simp only [slot_set_other _ _ _ hc]
  · simp only [slot_set_other _ _ _ hc]

theorem loop_advance_current_le (env : Env) (i : Nat) (f : mime_filter_t) (st : LoopState) :
    (loop_advance env i f st).current ≤ 1 := by
  simp only [loop_advance]
  omega

theorem loop_advance_filterfds (env : Env) (i : Nat) (f : mime_filter_t) (st : LoopState) :
    (loop_advance env i f st).filterfds = st.filterfds := rfl

theorem loop_advance_proc (env : Env) (i : Nat) (f : mime_filter_t) (st : LoopState) :
    (loop_advance env i f st).proc = st.proc := rfl

theorem loop_advance_current (env : Env) (i : Nat) (f : mime_filter_t) (st : LoopState) :
    (loop_advance env i f st).current = 1 - st.current := rfl
/-! ### Pipe wiring of the spawn loop -/

theorem lookup_close_ne (t : FdTable) (a b : Int) (h : b ≠ a) :
    fd_lookup (sys_close t a) b = fd_lookup t b := by
  rw [lookup_close]
  simp [h]

theorem fd_ne_of_obj_ne (t : FdTable) (a b : Int) (x y : FileObj)
    (ha : fd_lookup t a = some x) (hb : fd_lookup t b = some y) (hxy : x ≠ y) : a ≠ b := by
  intro e
  rw [e, hb] at ha
  exact hxy (Option.some.inj ha).symm

theorem p_close_fdt (p : Proc) (fd : Int) : (p_close p fd).fdt = sys_close p.fdt fd := rfl

theorem p_pipe_read (p : Proc) (k : Nat) :
    fd_lookup (p_pipe p k).2.2.fdt ((p_pipe p k).1 : Int) = some (FileObj.pipeRead k) := by
  simp only [p_pipe]
  have h1 : fd_lookup (fd_install p.fdt (FileObj.pipeRead k)).2
      ((fd_install p.fdt (FileObj.pipeRead k)).1 : Int) = some (FileObj.pipeRead k) := by
    rw [lookup_install, fd_install_fst]
    simp
  rw [install_keeps_occupied _ _ _ (by rw [h1]; simp), h1]

theorem p_pipe_write (p : Proc) (k : Nat) :
    fd_lookup (p_pipe p k).2.2.fdt ((p_pipe p k).2.1 : Int) = some (FileObj.pipeWrite k) := by
  simp only [p_pipe]
  rw [lookup_install, fd_install_fst]
  simp

theorem p_pipe_keeps (p : Proc) (k : Nat) (b : Int) (h : fd_lookup p.fdt b ≠ none) :
    fd_lookup (p_pipe p k).2.2.fdt b = fd_lookup p.fdt b := by
  simp only [p_pipe]
  have h1 := install_keeps_occupied p.fdt (FileObj.pipeRead k) b h
  rw [install_keeps_occupied _ _ _ (by rw [h1]; exact h), h1]

theorem holds_keeps_pipe (p : Proc) (k j : Nat) (s : Int × Int) (h : Holds p.fdt s j) :
    Holds (p_pipe p k).2.2.fdt s j := by
  obtain ⟨r, w, hs, hr, hw⟩ := h
  refine ⟨r, w, hs, ?_, ?_⟩
  · rw [p_pipe_keeps p k _ (by rw [hr]; simp), hr]
  · rw [p_pipe_keeps p k _ (by rw [hw]; simp), hw]

theorem holds_keeps_close (t : FdTable) (s s2 : Int × Int) (j j2 : Nat) (hne : j ≠ j2)
    (h : Holds t s j) (h2 : Holds t s2 j2) :
    Holds (sys_close (sys_close t s2.1) s2.2) s j := by
  obtain ⟨r, w, hs, hr, hw⟩ := h
  obtain ⟨r2, w2, hs2, hr2, hw2⟩ := h2
  subst hs2
  have n1 : (r : Int) ≠ r2 := fd_ne_of_obj_ne t _ _ _ _ hr hr2 (by simp [hne])
  have n2 : (r : Int) ≠ w2 := fd_ne_of_obj_ne t _ _ _ _ hr hw2 (by simp)
  have n3 : (w : Int) ≠ r2 := fd_ne_of_obj_ne t _ _ _ _ hw hr2 (by simp)
  have n4 : (w : Int) ≠ w2 := fd_ne_of_obj_ne t _ _ _ _ hw hw2 (by simp [hne])
  refine ⟨r, w, hs, ?_, ?_⟩
  · simp only [lookup_close_ne _ _ _ n2, lookup_close_ne _ _ _ n1, hr]
  · simp only [lookup_close_ne _ _ _ n4, lookup_close_ne _ _ _ n3, hw]

/-- After lines 578-585 slot current still holds its pipe. -/
theorem close_previous_holds (i : Nat) (st : LoopState) (h : WiringInv i st) (hi : 1 ≤ i) :
    Holds (close_previous st).proc.fdt (slot st.filterfds st.current) (i - 1) := by
  obtain ⟨hc, _, h1, hcur, hoth⟩ := h
  unfold close_previous
  split
  · rename_i hgt
    rw [c_not_eq] at hgt
    have hi2 : 2 ≤ i := by
      by_contra hlt
      have := h1 (by omega)
      rw [this] at hgt
      simp at hgt
    have := holds_keeps_close st.proc.fdt _ _ (i - 1) (i - 2) (by omega) (hcur hi) (hoth hi2)
    simpa [p_close_fdt] using this
  · exact hcur hi

theorem prepare_output_ok_filterfds (env : Env) (i : Nat) (st : LoopState)
    (hok : env.pipe_outcome i = PipeOutcome.ok) :
    (prepare_output env i true st).filterfds
      = set_slot st.filterfds (1 - st.current)
          (((p_pipe st.proc i).1 : Int), ((p_pipe st.proc i).2.1 : Int)) := by
  simp [prepare_output, open_pipe, hok]

theorem prepare_output_ok_proc (env : Env) (i : Nat) (st : LoopState)
    (hok : env.pipe_outcome i = PipeOutcome.ok) :
    (prepare_output env i true st).proc = (p_pipe st.proc i).2.2 := by
  simp [prepare_output, open_pipe, hok]

theorem prepare_output_last_proc (env : Env) (i : Nat) (st : LoopState) :
    (prepare_output env i false st).proc = st.proc := by
  simp [prepare_output]

theorem prepare_output_last_out (env : Env) (i : Nat) (st : LoopState) :
    (slot (prepare_output env i false st).filterfds (1 - st.current)).2 = 1 := by
  simp [prepare_output, slot_set_same]

/-- The state in which exec_filter is called for a stage that has a successor. -/
theorem body_wiring (env : Env) (i : Nat) (st : LoopState) (h : WiringInv i st)
    (hok : env.pipe_outcome i = PipeOutcome.ok) :
    let st2 := prepare_output env i true (close_previous st)
    st2.current = st.current ∧
    slot st2.filterfds st.current = slot st.filterfds st.current ∧
    Holds st2.proc.fdt (slot st2.filterfds (1 - st.current)) i ∧
    (1 ≤ i → Holds st2.proc.fdt (slot st.filterfds st.current) (i - 1)) := by
  have hc : st.current ≤ 1 := h.1
  have hcc : (close_previous st).current = st.current := close_previous_current st
  have hc2 : (close_previous st).current ≤ 1 := by rw [hcc]; exact hc
  refine ⟨?_, ?_, ?_, ?_⟩
  · rw [prepare_output_current, hcc]
  · have := prepare_output_slot_current env i true (close_previous st) hc2
    rw [hcc] at this
    rw [this, close_previous_slot_current st hc]
  · rw [prepare_output_ok_filterfds env i _ hok, prepare_output_ok_proc env i _ hok, hcc,
      slot_set_same]
    exact ⟨_, _, rfl, p_pipe_read _ _, p_pipe_write _ _⟩
  · intro hi
    rw [prepare_output_ok_proc env i _ hok]
    exact holds_keeps_pipe _ _ _ _ (close_previous_holds i st h hi)

/-- The state in which exec_filter is called for the last stage. -/
theorem body_wiring_last (env : Env) (i : Nat) (st : LoopState) (h : WiringInv i st) :
    let st2 := prepare_output env i false (close_previous st)
    st2.current = st.current ∧
    slot st2.filterfds st.current = slot st.filterfds st.current ∧
    (slot st2.filterfds (1 - st.current)).2 = 1 ∧
    (1 ≤ i → Holds st2.proc.fdt (slot st.filterfds st.current) (i - 1)) := by
  have hc : st.current ≤ 1 := h.1
  have hcc : (close_previous st).current = st.current := close_previous_current st
  have hc2 : (close_previous st).current ≤ 1 := by rw [hcc]; exact hc
  refine ⟨?_, ?_, ?_, ?_⟩
  · rw [prepare_output_current, hcc]
  · have := prepare_output_slot_current env i false (close_previous st) hc2
    rw [hcc] at this
    rw [this, close_previous_slot_current st hc]
  · have := prepare_output_last_out env i (close_previous st)
    rwa [hcc] at this
  · intro hi
    rw [prepare_output_last_proc]
    exact close_previous_holds i st h hi

/-- The invariant at the head of the loop for the next stage. -/
theorem wiring_step (env : Env) (i : Nat) (f : mime_filter_t) (st : LoopState)
    (h : WiringInv i st) (hok : env.pipe_outcome i = PipeOutcome.ok) :
    WiringInv (i + 1) (loop_advance env i f (loop_body env i f true st)) := by
  obtain ⟨h1, h2, h3, h4⟩ := body_wiring env i st h hok
  have hc : st.current ≤ 1 := h.1
  have hbc : (loop_body env i f true st).current = st.current := by
    rw [loop_body_current]
  refine ⟨loop_advance_current_le _ _ _ _, ?_, ?_, ?_, ?_⟩
  · intro h0; omega
  · intro hi
    have hi0 : i = 0 := by omega
    rw [loop_advance_current, loop_advance_filterfds, loop_body_filterfds, hbc,
      one_sub_one_sub _ hc, h2]
    exact h.2.1 hi0
  · intro _
    rw [loop_advance_current, loop_advance_filterfds, loop_advance_proc, loop_body_filterfds,
      loop_body_proc, hbc]
    simpa using h3
  · intro hi
    rw [loop_advance_current, loop_advance_filterfds, loop_advance_proc, loop_body_filterfds,
      loop_body_proc, hbc, one_sub_one_sub _ hc, h2]
    have := h4 (by omega)
    rwa [show i + 1 - 2 = i - 1 by omega]
theorem exec_filter_infd (env : Env) (i : Nat) (prog : CStr) (st : LoopState) :
    (exec_filter env i prog st).infd = (slot st.filterfds st.current).1 := rfl

theorem exec_filter_outfd (env : Env) (i : Nat) (prog : CStr) (st : LoopState) :
    (exec_filter env i prog st).outfd = (slot st.filterfds (1 - st.current)).2 := rfl

theorem exec_filter_fdt (env : Env) (i : Nat) (prog : CStr) (st : LoopState) :
    (exec_filter env i prog st).fdt = st.proc.fdt := rfl

/-- The input side of the call made for stage i. -/
theorem head_call_in (env : Env) (i : Nat) (prog : CStr) (b : Bool) (st : LoopState)
    (h : WiringInv i st) (hok : b = true → env.pipe_outcome i = PipeOutcome.ok) :
    let c := exec_filter env i prog (prepare_output env i b (close_previous st))
    c.infd = (slot st.filterfds st.current).1 ∧
    (1 ≤ i → Holds c.fdt (slot st.filterfds st.current) (i - 1)) := by
  cases b with
  | true =>
    obtain ⟨h1, h2, _, h4⟩ := body_wiring env i st h (hok rfl)
    refine ⟨?_, ?_⟩
    · rw [exec_filter_infd, h1, h2]
    · intro hi
      rw [exec_filter_fdt]
      exact h4 hi
  | false =>
    obtain ⟨h1, h2, _, h4⟩ := body_wiring_last env i st h
    refine ⟨?_, ?_⟩
    · rw [exec_filter_infd, h1, h2]
    · intro hi
      rw [exec_filter_fdt]
      exact h4 hi

theorem holds_unique (t2 : FdTable) (s : Int × Int) (k2 : Nat) (r w : Nat)
    (hs : s = ((r : Int), (w : Int))) (h2 : Holds t2 s k2) :
    fd_lookup t2 r = some (FileObj.pipeRead k2) ∧ fd_lookup t2 w = some (FileObj.pipeWrite k2) := by
  obtain ⟨r2, w2, hs2, hr2, hw2⟩ := h2
  rw [hs] at hs2
  have e1 : (r : Int) = r2 := congrArg Prod.fst hs2
  have e2 : (w : Int) = w2 := congrArg Prod.snd hs2
  rw [e1, e2]
  exact ⟨hr2, hw2⟩

/-- The calls made from stage i on are wired, when every open_pipe and exec_filter call
succeeds. -/
theorem loop_calls_wired (env : Env) (fs : List mime_filter_t) :
    ∀ (i : Nat) (st : LoopState), WiringInv i st →
      (∀ j, j < fs.length → 0 < env.fork_pid (i + j)) →
      (∀ j, j + 1 < fs.length → env.pipe_outcome (i + j) = PipeOutcome.ok) →
      Wired i (loop_calls env i fs st) := by
  induction fs with
  | nil => intro i st _ _ _; simp [loop_calls, Wired]
  | cons f rest ih =>
    intro i st hinv hfork hpipe
    have h0 : 0 < env.fork_pid i := by simpa using hfork 0 (by simp)
    have hfork2 : ∀ j, j < rest.length → 0 < env.fork_pid (i + 1 + j) := by
      intro j hj
      have := hfork (j + 1) (by simpa using hj)
      rwa [show i + 1 + j = i + (j + 1) by omega]
    have hpipe2 : ∀ j, j + 1 < rest.length → env.pipe_outcome (i + 1 + j) = PipeOutcome.ok := by
      intro j hj
      have := hpipe (j + 1) (by simpa using hj)
      rwa [show i + 1 + j = i + (j + 1) by omega]
    cases rest with
    | nil =>
      rw [loop_calls]
      simp only [h0, gt_iff_lt, if_true, loop_calls, Wired]
      have := (body_wiring_last env i st hinv).2.2.1
      rw [exec_filter_outfd, prepare_output_current, close_previous_current]
      simpa using this
    | cons g rest2 =>
      have hok : env.pipe_outcome i = PipeOutcome.ok := by simpa using hpipe 0 (by simp)
      have hnext := wiring_step env i f st hinv hok
      have htail := ih (i + 1) _ hnext hfork2 hpipe2
      obtain ⟨b1, b2, b3, b4⟩ := body_wiring env i st hinv hok
      have hok2 : (!rest2.isEmpty) = true → env.pipe_outcome (i + 1) = PipeOutcome.ok := by
        intro hne
        cases rest2 with
        | nil => simp at hne
        | cons x xs => simpa using hpipe2 0 (by simp)
      have hhead := head_call_in env (i + 1) (resolve_program env.ServerBin g)
        (!(rest2.isEmpty)) _ hnext hok2
      rw [loop_calls]
      simp only [h0, gt_iff_lt, if_true]
      rw [loop_calls] at htail ⊢
      simp only [List.isEmpty_cons, Bool.not_false] at htail ⊢
      refine ⟨?_, htail⟩
      obtain ⟨r, w, hs, hr, hw⟩ := b3
      have hcur : (loop_advance env i f (loop_body env i f true st)).current = 1 - st.current := by
        rw [loop_advance_current, loop_body_current]
      have hfd : (loop_advance env i f (loop_body env i f true st)).filterfds
          = (prepare_output env i true (close_previous st)).filterfds := rfl
      have hin := hhead.1
      have hho := hhead.2 (by omega)
      rw [hcur, hfd] at hin hho
      have hu := holds_unique _ _ (i + 1 - 1) r w hs hho
      simp only [Nat.add_sub_cancel] at hu
      refine ⟨r, w, ?_, ?_, ?_, ?_, hu.1, hu.2⟩
      · rw [exec_filter_outfd, prepare_output_current, close_previous_current, hs]
      · rw [hin, hs]
      · rw [exec_filter_fdt]; exact hr
      · rw [exec_filter_fdt]; exact hw

theorem initial_wiring (env : Env) (entry : List Bool) (filename title : CStr)
    (options : List cups_option_t) :
    WiringInv 0 (initial_state env entry filename title options) := by
  refine ⟨?_, ?_, ?_, ?_, ?_⟩
  · simp [initial_state]
  · intro _; simp [initial_state, slot]
  · intro _; simp [initial_state, slot]
  · intro h; omega
  · intro h; omega

/-- Reading of Wired by position. -/
theorem wired_at (l : List ExecCall) :
    ∀ (i j : Nat), Wired i l → j + 1 < l.length →
      ∃ c1 c2, l[j]? = some c1 ∧ l[j + 1]? = some c2 ∧ Joined (i + j) c1 c2 := by
  induction l with
  | nil => intro i j _ hj; simp at hj
  | cons c1 rest ih =>
    intro i j hw hj
    cases rest with
    | nil => simp at hj
    | cons c2 rest2 =>
      simp only [Wired] at hw
      cases j with
      | zero => exact ⟨c1, c2, by simp, by simp, by simpa using hw.1⟩
      | succ j2 =>
        obtain ⟨d1, d2, e1, e2, hj2⟩ := ih (i + 1) j2 hw.2 (by simpa using hj)
        refine ⟨d1, d2, by simpa using e1, by simpa using e2, ?_⟩
        rwa [show i + (j2 + 1) = i + 1 + j2 by omega]

theorem wired_last (l : List ExecCall) :
    ∀ (i : Nat), Wired i l → ∀ c, l.getLast? = some c → c.outfd = 1 := by
  induction l with
  | nil => intro i _ c hc; simp at hc
  | cons c1 rest ih =>
    intro i hw c hc
    cases rest with
    | nil =>
      simp only [Wired] at hw
      simp at hc
      rw [← hc]; exact hw
    | cons c2 rest2 =>
      simp only [Wired] at hw
      rw [List.getLast?_cons_cons] at hc
      exact ih (i + 1) hw.2 c hc
/-! ### Descriptor accounting of the spawn loop -/

theorem tableIs_perm (t0 t : FdTable) (P Q : List (Int × Int × Nat)) (hp : P.Perm Q)
    (h : TableIs t0 t P) : TableIs t0 t Q := by
  obtain ⟨h1, h2, h3⟩ := h
  refine ⟨?_, ?_, ?_⟩
  · intro e he
    exact h1 e (hp.mem_iff.mpr he)
  · intro fd hfd
    exact h2 fd (fun e he => hfd e (hp.mem_iff.mp he))
  · exact ((hp.map _).nodup_iff).mp h3

theorem tableIs_nil (t0 t : FdTable) (h : TableIs t0 t []) (fd : Int) :
    fd_lookup t fd = fd_lookup t0 fd :=
  h.2.1 fd (by simp)

/-- Closing the two descriptors of a listed pipe: both closes hit an open descriptor,
and the table is the entry table plus the other pipes. -/
theorem tableIs_close (t0 t : FdTable) (e : Int × Int × Nat) (Q : List (Int × Int × Nat))
    (h : TableIs t0 t (e :: Q)) :
    (fd_lookup t e.1).isSome = true ∧
    (fd_lookup (sys_close t e.1) e.2.1).isSome = true ∧
    TableIs t0 (sys_close (sys_close t e.1) e.2.1) Q := by
  obtain ⟨h1, h2, h3⟩ := h
  obtain ⟨er, ew, e0r, e0w⟩ := h1 e (by simp)
  have hrw : e.2.1 ≠ e.1 := fd_ne_of_obj_ne t _ _ _ _ ew er (by simp)
  have hnd : ∀ x ∈ Q, x.2.2 ≠ e.2.2 := by
    intro x hx heq
    simp only [List.map_cons, List.nodup_cons, List.mem_map] at h3
    exact h3.1 ⟨x, hx, heq⟩
  refine ⟨by rw [er]; rfl, by rw [lookup_close_ne _ _ _ hrw, ew]; rfl, ?_, ?_, ?_⟩
  · intro x hx
    obtain ⟨xr, xw, x0r, x0w⟩ := h1 x (List.mem_cons_of_mem _ hx)
    have hk := hnd x hx
    have n1 : x.1 ≠ e.1 := fd_ne_of_obj_ne t _ _ _ _ xr er (by simp [hk])
    have n2 : x.1 ≠ e.2.1 := fd_ne_of_obj_ne t _ _ _ _ xr ew (by simp)
    have n3 : x.2.1 ≠ e.1 := fd_ne_of_obj_ne t _ _ _ _ xw er (by simp)
    have n4 : x.2.1 ≠ e.2.1 := fd_ne_of_obj_ne t _ _ _ _ xw ew (by simp [hk])
    refine ⟨?_, ?_, x0r, x0w⟩
    · rw [lookup_close_ne _ _ _ n2, lookup_close_ne _ _ _ n1, xr]
    · rw [lookup_close_ne _ _ _ n4, lookup_close_ne _ _ _ n3, xw]
  · intro fd hfd
    by_cases c1 : fd = e.2.1
    · rw [c1, lookup_close, e0w]; simp
    · rw [lookup_close_ne _ _ _ c1]
      by_cases c2 : fd = e.1
      · rw [c2, lookup_close, e0r]; simp
      · rw [lookup_close_ne _ _ _ c2]
        apply h2
        intro x hx
        rcases List.mem_cons.mp hx with hxe | hxQ
        · rw [hxe]; exact ⟨c2, c1⟩
        · exact hfd x hxQ
  · simp only [List.map_cons, List.nodup_cons] at h3
    exact h3.2

theorem p_pipe_other (p : Proc) (k : Nat) (b : Int) (h1 : b ≠ ((p_pipe p k).1 : Int))
    (h2 : b ≠ ((p_pipe p k).2.1 : Int)) :
    fd_lookup (p_pipe p k).2.2.fdt b = fd_lookup p.fdt b := by
  simp only [p_pipe] at h1 h2 ⊢
  rw [lookup_install]
  rw [fd_install_fst] at h2
  simp only [h2, if_false]
  rw [lookup_install]
  rw [fd_install_fst] at h1
  simp [h1]

theorem p_pipe_read_free (p : Proc) (k : Nat) :
    fd_lookup p.fdt ((p_pipe p k).1 : Int) = none := by
  simp only [p_pipe, fd_install_fst]
  exact lookup_lowest_free _

theorem p_pipe_write_free (p : Proc) (k : Nat) :
    fd_lookup p.fdt ((p_pipe p k).2.1 : Int) = none := by
  have hw : fd_lookup (fd_install p.fdt (FileObj.pipeRead k)).2 ((p_pipe p k).2.1 : Int) = none := by
    simp only [p_pipe, fd_install_fst]
    exact lookup_lowest_free _
  rw [lookup_install] at hw
  by_cases hc : ((p_pipe p k).2.1 : Int) = (lowest_free p.fdt : Int)
  · simp [hc] at hw
  · simpa [hc] using hw

/-- A successful pipe adds one pipe to the list. -/
theorem tableIs_pipe (t0 : FdTable) (p : Proc) (k : Nat) (Q : List (Int × Int × Nat))
    (h : TableIs t0 p.fdt Q) (hk : ∀ x ∈ Q, x.2.2 ≠ k) :
    TableIs t0 (p_pipe p k).2.2.fdt
      ((((p_pipe p k).1 : Int), ((p_pipe p k).2.1 : Int), k) :: Q) := by
  obtain ⟨h1, h2, h3⟩ := h
  have fr := p_pipe_read_free p k
  have fw := p_pipe_write_free p k
  have hqr : ∀ x ∈ Q, ((p_pipe p k).1 : Int) ≠ x.1 ∧ ((p_pipe p k).1 : Int) ≠ x.2.1 := by
    intro x hx
    obtain ⟨xr, xw, _, _⟩ := h1 x hx
    constructor
    · intro e; rw [e, xr] at fr; simp at fr
    · intro e; rw [e, xw] at fr; simp at fr
  have hqw : ∀ x ∈ Q, ((p_pipe p k).2.1 : Int) ≠ x.1 ∧ ((p_pipe p k).2.1 : Int) ≠ x.2.1 := by
    intro x hx
    obtain ⟨xr, xw, _, _⟩ := h1 x hx
    constructor
    · intro e; rw [e, xr] at fw; simp at fw
    · intro e; rw [e, xw] at fw; simp at fw
  refine ⟨?_, ?_, ?_⟩
  · intro x hx
    rcases List.mem_cons.mp hx with hxe | hxQ
    · subst hxe
      refine ⟨p_pipe_read p k, p_pipe_write p k, ?_, ?_⟩
      · rw [← h2 _ hqr]; exact fr
      · rw [← h2 _ hqw]; exact fw
    · obtain ⟨xr, xw, x0r, x0w⟩ := h1 x hxQ
      refine ⟨?_, ?_, x0r, x0w⟩
      · rw [p_pipe_keeps p k _ (by rw [xr]; simp), xr]
      · rw [p_pipe_keeps p k _ (by rw [xw]; simp), xw]
  · intro fd hfd
    have hne := hfd _ (List.mem_cons_self _ _)
    rw [p_pipe_other p k fd hne.1 hne.2]
    exact h2 fd (fun x hx => hfd x (List.mem_cons_of_mem _ hx))
  · simp only [List.map_cons, List.nodup_cons, List.mem_map, not_exists, not_and]
    exact ⟨fun x hx => hk x hx, h3⟩
theorem mem_pipes_open (t : FdTable) (k : Nat) (h : k ∈ pipes_open t) :
    ∃ n : Nat, pipe_id (fd_lookup t (n : Int)) = some k := by
  unfold pipes_open at h
  rw [List.mem_dedup, List.mem_filterMap] at h
  obtain ⟨e, he, hk⟩ := h
  obtain ⟨n, hn, hget⟩ := List.mem_iff_getElem.mp he
  refine ⟨n, ?_⟩
  rw [fd_lookup_nat]
  simp only [List.getD_eq_getElem?_getD]
  rw [List.getElem?_eq_getElem hn, hget]
  simpa using hk

theorem pipes_open_bound (t : FdTable) (ids : List Nat) (h : PipesWithin t ids) :
    (pipes_open t).length ≤ ids.length := by
  have hsub : pipes_open t ⊆ ids := by
    intro k hk
    obtain ⟨n, hn⟩ := mem_pipes_open t k hk
    exact h _ _ hn
  have hnd : (pipes_open t).Nodup := List.nodup_dedup _
  exact (hnd.subperm hsub).length_le

theorem pipesWithin_close (t : FdTable) (ids : List Nat) (a : Int) (h : PipesWithin t ids) :
    PipesWithin (sys_close t a) ids := by
  intro fd k hk
  rw [lookup_close] at hk
  by_cases c : fd = a
  · simp [c, pipe_id] at hk
  · simp only [c, if_false] at hk
    exact h fd k hk

theorem pipesWithin_of_tableIs (t0 t : FdTable) (P : List (Int × Int × Nat))
    (hp : Pristine t0) (h : TableIs t0 t P) : PipesWithin t (P.map (fun e => e.2.2)) := by
  intro fd k hk
  by_cases c : ∃ e ∈ P, fd = e.1 ∨ fd = e.2.1
  · obtain ⟨e, he, hfd⟩ := c
    obtain ⟨er, ew, _, _⟩ := h.1 e he
    rcases hfd with hfd | hfd
    · rw [hfd, er] at hk
      simp only [pipe_id, Option.some.injEq] at hk
      exact List.mem_map.mpr ⟨e, he, hk⟩
    · rw [hfd, ew] at hk
      simp only [pipe_id, Option.some.injEq] at hk
      exact List.mem_map.mpr ⟨e, he, hk⟩
  · have hn : ∀ e ∈ P, fd ≠ e.1 ∧ fd ≠ e.2.1 := by
      intro e he
      constructor
      · intro x; exact c ⟨e, he, Or.inl x⟩
      · intro x; exact c ⟨e, he, Or.inr x⟩
    rw [h.2.1 fd hn, hp fd] at hk
    simp at hk

theorem logOK_append (l1 l2 : List LogEntry) (h1 : LogOK l1) (h2 : LogOK l2) :
    LogOK (l1 ++ l2) := by
  intro e he
  rcases List.mem_append.mp he with h | h
  · exact h1 e h
  · exact h2 e h

theorem logOK_single_close (fd : Int) (t : FdTable) (n : Nat)
    (hb : (pipes_open t).length ≤ n) (hn : n ≤ 2) :
    LogOK [⟨SysEvent.close fd true, t⟩] := by
  intro e he
  simp only [List.mem_singleton] at he
  subst he
  refine ⟨?_, by simp only; omega⟩
  intro fd2 b hb2
  simp only [SysEvent.close.injEq] at hb2
  exact hb2.2.symm

theorem logOK_single_pipe (r w : Nat) (t : FdTable) (n : Nat)
    (hb : (pipes_open t).length ≤ n) (hn : n ≤ 2) :
    LogOK [⟨SysEvent.pipe r w, t⟩] := by
  intro e he
  simp only [List.mem_singleton] at he
  subst he
  refine ⟨?_, by simp only; omega⟩
  intro fd2 b hb2
  simp at hb2

/-- Accounting for the close of both ends of a listed pipe. -/
theorem acc_close (t0 : FdTable) (hp : Pristine t0) (p : Proc) (e : Int × Int × Nat)
    (Q : List (Int × Int × Nat)) (h : Acc t0 p (e :: Q)) (hlen : Q.length ≤ 1) :
    Acc t0 (p_close (p_close p e.1) e.2.1) Q := by
  obtain ⟨hlog, htab⟩ := h
  obtain ⟨o1, o2, hQ⟩ := tableIs_close t0 p.fdt e Q htab
  refine ⟨?_, hQ⟩
  have w1 : PipesWithin (sys_close p.fdt e.1) ((e :: Q).map (fun e => e.2.2)) :=
    pipesWithin_close _ _ _ (pipesWithin_of_tableIs t0 _ _ hp htab)
  have w2 := pipesWithin_of_tableIs t0 _ _ hp hQ
  have b1 := pipes_open_bound _ _ w1
  have b2 := pipes_open_bound _ _ w2
  simp only [List.length_map, List.length_cons] at b1 b2
  simp only [p_close, o1, o2, List.append_assoc]
  apply logOK_append _ _ hlog
  apply logOK_append
  · exact logOK_single_close _ _ (Q.length + 1) b1 (by omega)
  · exact logOK_single_close _ _ Q.length b2 (by omega)

theorem p_pipe_log (p : Proc) (k : Nat) :
    (p_pipe p k).2.2.log
      = p.log ++ [⟨SysEvent.pipe (p_pipe p k).1 (p_pipe p k).2.1, (p_pipe p k).2.2.fdt⟩] := rfl

/-- Accounting for a successful pipe. -/
theorem acc_pipe (t0 : FdTable) (hp : Pristine t0) (p : Proc) (k : Nat)
    (Q : List (Int × Int × Nat)) (h : Acc t0 p Q) (hlen : Q.length ≤ 1)
    (hk : ∀ x ∈ Q, x.2.2 ≠ k) :
    Acc t0 (p_pipe p k).2.2 ((((p_pipe p k).1 : Int), ((p_pipe p k).2.1 : Int), k) :: Q) := by
  obtain ⟨hlog, htab⟩ := h
  have hT := tableIs_pipe t0 p k Q htab hk
  refine ⟨?_, hT⟩
  have w := pipesWithin_of_tableIs t0 _ _ hp hT
  have b := pipes_open_bound _ _ w
  simp only [List.length_map, List.length_cons] at b
  rw [p_pipe_log]
  apply logOK_append _ _ hlog
  exact logOK_single_pipe _ _ _ (Q.length + 1) b (by omega)
theorem acc_perm (t0 : FdTable) (p : Proc) (P Q : List (Int × Int × Nat)) (hp : P.Perm Q)
    (h : Acc t0 p P) : Acc t0 p Q :=
  ⟨h.1, tableIs_perm t0 p.fdt P Q hp h.2⟩

theorem owned_length (s : Int × Int) (k : Nat) : (owned s k).length ≤ 1 := by
  unfold owned
  split <;> simp

theorem owned_pos (s : Int × Int) (k : Nat) (h : 1 < s.2) : owned s k = [(s.1, s.2, k)] := by
  simp [owned, h]

theorem owned_neg (s : Int × Int) (k : Nat) (h : ¬ 1 < s.2) : owned s k = [] := by
  simp [owned, h]

/-- Lines 578-585, accounted: afterwards the parent holds the pipe of slot current only. -/
theorem leak_close_previous (t0 : FdTable) (hp : Pristine t0) (i : Nat) (st : LoopState)
    (h : LeakInv t0 i st) :
    (close_previous st).current = st.current ∧
    slot (close_previous st).filterfds st.current = slot st.filterfds st.current ∧
    ∃ kc, Acc t0 (close_previous st).proc (owned (slot st.filterfds st.current) kc) ∧
      ∀ e ∈ owned (slot st.filterfds st.current) kc, e.2.2 < i := by
  obtain ⟨hc, kc, ko, hacc, hid⟩ := h
  refine ⟨close_previous_current st, close_previous_slot_current st hc, kc, ?_, ?_⟩
  · unfold close_previous
    split
    · rename_i hgt
      rw [c_not_eq] at hgt
      have hgt2 : 1 < (slot st.filterfds (1 - st.current)).2 := hgt
      rw [owned_pos _ ko hgt2] at hacc
      have hperm : (owned (slot st.filterfds st.current) kc ++
          [((slot st.filterfds (1 - st.current)).1, (slot st.filterfds (1 - st.current)).2, ko)]).Perm
          (((slot st.filterfds (1 - st.current)).1, (slot st.filterfds (1 - st.current)).2, ko) ::
            owned (slot st.filterfds st.current) kc) :=
        List.perm_append_singleton _ _
      exact acc_close t0 hp st.proc _ _ (acc_perm t0 _ _ _ hperm hacc) (owned_length _ _)
    · rename_i hgt
      rw [c_not_eq] at hgt
      rw [owned_neg _ ko hgt] at hacc
      simpa using hacc
  · intro e he
    exact hid e (List.mem_append_left _ he)

theorem open_pipe_ok_mem (p : Proc) (k : Nat) :
    (⟨SysEvent.pipe (p_pipe p k).1 (p_pipe p k).2.1, (p_pipe p k).2.2.fdt⟩ : LogEntry)
      ∈ (p_pipe p k).2.2.log := by
  rw [p_pipe_log]
  simp

/-- Lines 587-590, accounted: afterwards the parent holds, besides the pipes it held,
the pipe the other slot accounts for. -/
theorem leak_prepare (t0 : FdTable) (hp : Pristine t0) (env : Env) (i : Nat) (b : Bool)
    (st : LoopState) (Q : List (Int × Int × Nat)) (hacc : Acc t0 st.proc Q)
    (hlen : Q.length ≤ 1) (hid : ∀ e ∈ Q, e.2.2 < i)
    (habove : PipesAbove (prepare_output env i b st).proc.log) :
    Acc t0 (prepare_output env i b st).proc
      (Q ++ owned (slot (prepare_output env i b st).filterfds (1 - st.current)) i) := by
  have hk : ∀ x ∈ Q, x.2.2 ≠ i := fun x hx => Nat.ne_of_lt (hid x hx)
  cases b with
  | false =>
    have h1 : ¬ 1 < (slot (prepare_output env i false st).filterfds (1 - st.current)).2 := by
      rw [prepare_output_last_out]; decide
    rw [owned_neg _ _ h1, prepare_output_last_proc]
    simpa using hacc
  | true =>
    cases hoc : env.pipe_outcome i with
    | pipe_fails =>
      have e1 : (prepare_output env i true st).proc = st.proc := by
        simp [prepare_output, open_pipe, hoc]
      have e2 : slot (prepare_output env i true st).filterfds (1 - st.current) = (-1, -1) := by
        simp [prepare_output, open_pipe, hoc, slot_set_same]
      rw [e1, e2, owned_neg _ _ (by decide)]
      simpa using hacc
    | ok =>
      have e1 := prepare_output_ok_proc env i st hoc
      have e2 : slot (prepare_output env i true st).filterfds (1 - st.current)
          = (((p_pipe st.proc i).1 : Int), ((p_pipe st.proc i).2.1 : Int)) := by
        rw [prepare_output_ok_filterfds env i st hoc, slot_set_same]
      have hab := habove _ (by rw [e1]; exact open_pipe_ok_mem st.proc i) _ _ rfl
      have hw : (1 : Int) < ((p_pipe st.proc i).2.1 : Int) := by exact_mod_cast hab.2
      rw [e1, e2, owned_pos _ _ hw]
      have := acc_pipe t0 hp st.proc i Q hacc hlen hk
      exact acc_perm t0 _ _ _ (List.perm_append_singleton _ _).symm this
    | fcntl_read_fails =>
      have e1 : (prepare_output env i true st).proc
          = p_close (p_close (p_pipe st.proc i).2.2 (p_pipe st.proc i).1) (p_pipe st.proc i).2.1 := by
        simp [prepare_output, open_pipe, hoc]
      have e2 : slot (prepare_output env i true st).filterfds (1 - st.current) = (-1, -1) := by
        simp [prepare_output, open_pipe, hoc, slot_set_same]
      rw [e1, e2, owned_neg _ _ (by decide)]
      have := acc_close t0 hp _ _ _ (acc_pipe t0 hp st.proc i Q hacc hlen hk) hlen
      simpa using this
    | fcntl_write_fails =>
      have e1 : (prepare_output env i true st).proc
          = p_close (p_close (p_pipe st.proc i).2.2 (p_pipe st.proc i).1) (p_pipe st.proc i).2.1 := by
        simp [prepare_output, open_pipe, hoc]
      have e2 : slot (prepare_output env i true st).filterfds (1 - st.current) = (-1, -1) := by
        simp [prepare_output, open_pipe, hoc, slot_set_same]
      rw [e1, e2, owned_neg _ _ (by decide)]
      have := acc_close t0 hp _ _ _ (acc_pipe t0 hp st.proc i Q hacc hlen hk) hlen
      simpa using this

/-- The loop body keeps the accounting invariant. -/
theorem leak_body (t0 : FdTable) (hp : Pristine t0) (env : Env) (i : Nat) (f : mime_filter_t)
    (b : Bool) (st : LoopState) (h : LeakInv t0 i st)
    (habove : PipesAbove (loop_body env i f b st).proc.log) :
    LeakInv t0 (i + 1) (loop_body env i f b st) := by
  have hc : st.current ≤ 1 := h.1
  obtain ⟨c1, c2, kc, hacc, hid⟩ := leak_close_previous t0 hp i st h
  have hprep := leak_prepare t0 hp env i b (close_previous st) _ hacc (owned_length _ _) hid
    (by rw [← loop_body_proc env i f b st]; exact habove)
  rw [c1] at hprep
  have hc1 : (close_previous st).current ≤ 1 := by rw [c1]; exact hc
  have hs := prepare_output_slot_current env i b (close_previous st) hc1
  rw [c1, c2] at hs
  refine ⟨by rw [loop_body_current]; exact hc, kc, i, ?_, ?_⟩
  · rw [loop_body_proc, loop_body_filterfds, loop_body_current, hs]
    exact hprep
  · rw [loop_body_filterfds, loop_body_current, hs]
    intro e he
    rcases List.mem_append.mp he with h1 | h1
    · exact Nat.lt_succ_of_lt (hid e h1)
    · unfold owned at h1
      split at h1
      · simp only [List.mem_singleton] at h1
        rw [h1]
        exact Nat.lt_succ_self i
      · simp at h1

theorem leak_advance (t0 : FdTable) (env : Env) (i j : Nat) (f : mime_filter_t) (st : LoopState)
    (h : LeakInv t0 j st) : LeakInv t0 j (loop_advance env i f st) := by
  obtain ⟨hc, kc, ko, hacc, hid⟩ := h
  refine ⟨loop_advance_current_le _ _ _ _, ko, kc, ?_, ?_⟩
  · rw [loop_advance_current, loop_advance_filterfds, loop_advance_proc, one_sub_one_sub _ hc]
    exact acc_perm t0 _ _ _ List.perm_append_comm hacc
  · rw [loop_advance_current, loop_advance_filterfds, one_sub_one_sub _ hc]
    intro e he
    exact hid e (List.perm_append_comm.mem_iff.mp he)
theorem pipesAbove_of_append (l more : List LogEntry) (h : PipesAbove (l ++ more)) :
    PipesAbove l :=
  fun e he => h e (List.mem_append_left _ he)

theorem p_close_log (p : Proc) (fd : Int) : ∃ more, (p_close p fd).log = p.log ++ more :=
  ⟨_, rfl⟩

theorem p_close2_log (p : Proc) (a b : Int) :
    ∃ more, (p_close (p_close p a) b).log = p.log ++ more := by
  simp only [p_close, List.append_assoc]
  exact ⟨_, rfl⟩

theorem close_previous_log (st : LoopState) :
    ∃ more, (close_previous st).proc.log = st.proc.log ++ more := by
  unfold close_previous
  split
  · exact p_close2_log _ _ _
  · exact ⟨[], by simp⟩

theorem prepare_output_log (env : Env) (i : Nat) (b : Bool) (st : LoopState) :
    ∃ more, (prepare_output env i b st).proc.log = st.proc.log ++ more := by
  cases b with
  | false => exact ⟨[], by simp [prepare_output]⟩
  | true =>
    cases hoc : env.pipe_outcome i with
    | pipe_fails => exact ⟨[], by simp [prepare_output, open_pipe, hoc]⟩
    | ok =>
      rw [prepare_output_ok_proc env i st hoc, p_pipe_log]
      exact ⟨_, rfl⟩
    | fcntl_read_fails =>
      have e1 : (prepare_output env i true st).proc
          = p_close (p_close (p_pipe st.proc i).2.2 (p_pipe st.proc i).1) (p_pipe st.proc i).2.1 := by
        simp [prepare_output, open_pipe, hoc]
      obtain ⟨m, hm⟩ := p_close2_log (p_pipe st.proc i).2.2 (p_pipe st.proc i).1 (p_pipe st.proc i).2.1
      rw [e1, hm, p_pipe_log, List.append_assoc]
      exact ⟨_, rfl⟩
    | fcntl_write_fails =>
      have e1 : (prepare_output env i true st).proc
          = p_close (p_close (p_pipe st.proc i).2.2 (p_pipe st.proc i).1) (p_pipe st.proc i).2.1 := by
        simp [prepare_output, open_pipe, hoc]
      obtain ⟨m, hm⟩ := p_close2_log (p_pipe st.proc i).2.2 (p_pipe st.proc i).1 (p_pipe st.proc i).2.1
      rw [e1, hm, p_pipe_log, List.append_assoc]
      exact ⟨_, rfl⟩

theorem loop_body_log (env : Env) (i : Nat) (f : mime_filter_t) (b : Bool) (st : LoopState) :
    ∃ more, (loop_body env i f b st).proc.log = st.proc.log ++ more := by
  obtain ⟨m1, h1⟩ := close_previous_log st
  obtain ⟨m2, h2⟩ := prepare_output_log env i b (close_previous st)
  rw [loop_body_proc, h2, h1, List.append_assoc]
  exact ⟨_, rfl⟩

theorem close_remaining_log (st : LoopState) :
    ∃ more, (close_remaining st).proc.log = st.proc.log ++ more := by
  unfold close_remaining
  simp only
  by_cases h0 : 1 < (slot st.filterfds 0).2 <;> by_cases h1 : 1 < (slot st.filterfds 1).2
  · obtain ⟨m1, e1⟩ := p_close2_log st.proc (slot st.filterfds 0).1 (slot st.filterfds 0).2
    obtain ⟨m2, e2⟩ := p_close2_log
      (p_close (p_close st.proc (slot st.filterfds 0).1) (slot st.filterfds 0).2)
      (slot st.filterfds 1).1 (slot st.filterfds 1).2
    simp only [h0, h1, gt_iff_lt, if_true]
    rw [e2, e1, List.append_assoc]
    exact ⟨_, rfl⟩
  · simp only [h0, h1, gt_iff_lt, if_true, if_false]
    exact p_close2_log _ _ _
  · simp only [h0, h1, gt_iff_lt, if_true, if_false]
    exact p_close2_log _ _ _
  · simp only [h0, h1, gt_iff_lt, if_false]
    exact ⟨[], by simp⟩

/-- The spawn loop keeps the accounting invariant, as long as every descriptor returned
by pipe is greater than 1. -/
theorem leak_loop (t0 : FdTable) (hp : Pristine t0) (env : Env) (fs : List mime_filter_t) :
    ∀ (i : Nat) (st : LoopState), (PipesAbove st.proc.log → LeakInv t0 i st) →
      PipesAbove (exec_filters_loop env i fs st).proc.log →
      ∃ j, LeakInv t0 j (exec_filters_loop env i fs st) := by
  induction fs with
  | nil =>
    intro i st h habove
    rw [loop_nil] at habove ⊢
    exact ⟨i, h habove⟩
  | cons f rest ih =>
    intro i st h habove
    have hbody : PipesAbove (loop_body env i f (!rest.isEmpty) st).proc.log →
        LeakInv t0 (i + 1) (loop_body env i f (!rest.isEmpty) st) := by
      intro hab
      obtain ⟨more, hmore⟩ := loop_body_log env i f (!rest.isEmpty) st
      have hst : PipesAbove st.proc.log := by
        rw [hmore] at hab
        exact pipesAbove_of_append _ _ hab
      exact leak_body t0 hp env i f _ st (h hst) hab
    by_cases hfork : 0 < env.fork_pid i
    · rw [loop_cons_pos env i f rest st hfork] at habove ⊢
      apply ih (i + 1) _ _ habove
      intro hab
      exact leak_advance t0 env i (i + 1) f _ (hbody hab)
    · rw [loop_cons_neg env i f rest st hfork] at habove ⊢
      exact ⟨i + 1, hbody habove⟩

/-- Lines 612-622, accounted: afterwards the table is the entry table. -/
theorem leak_close_remaining (t0 : FdTable) (hp : Pristine t0) (j : Nat) (st : LoopState)
    (h : LeakInv t0 j st) :
    LogOK (close_remaining st).proc.log ∧
    ∀ fd, fd_lookup (close_remaining st).proc.fdt fd = fd_lookup t0 fd := by
  obtain ⟨hc, kc, ko, hacc, _⟩ := h
  have h01 : ∃ k0 k1, Acc t0 st.proc
      (owned (slot st.filterfds 0) k0 ++ owned (slot st.filterfds 1) k1) := by
    have hcases : st.current = 0 ∨ st.current = 1 := by omega
    rcases hcases with h0 | h1
    · rw [h0] at hacc
      exact ⟨kc, ko, hacc⟩
    · rw [h1] at hacc
      exact ⟨ko, kc, acc_perm t0 _ _ _ List.perm_append_comm hacc⟩
  obtain ⟨k0, k1, hA⟩ := h01
  have hfin : Acc t0 (close_remaining st).proc [] := by
    unfold close_remaining
    simp only
    by_cases h0 : 1 < (slot st.filterfds 0).2 <;> by_cases h1 : 1 < (slot st.filterfds 1).2
    · rw [owned_pos _ k0 h0, owned_pos _ k1 h1] at hA
      simp only [h0, h1, gt_iff_lt, if_true]
      have a1 := acc_close t0 hp st.proc _ _ hA (by simp)
      exact acc_close t0 hp _ _ _ a1 (by simp)
    · rw [owned_pos _ k0 h0, owned_neg _ k1 h1] at hA
      simp only [h0, h1, gt_iff_lt, if_true, if_false]
      exact acc_close t0 hp st.proc _ _ hA (by simp)
    · rw [owned_neg _ k0 h0, owned_pos _ k1 h1] at hA
      simp only [h0, h1, gt_iff_lt, if_true, if_false]
      exact acc_close t0 hp st.proc _ _ hA (by simp)
    · rw [owned_neg _ k0 h0, owned_neg _ k1 h1] at hA
      simp only [h0, h1, gt_iff_lt, if_false]
      exact hA
  exact ⟨hfin.1, tableIs_nil t0 _ hfin.2⟩

theorem lookup_mem (t : FdTable) (fd : Int) (o : FileObj) (h : fd_lookup t fd = some o) :
    some o ∈ t := by
  unfold fd_lookup at h
  split at h
  · simp at h
  · simp only [List.getD_eq_getElem?_getD] at h
    cases hg : t[fd.toNat]? with
    | none => simp [hg] at h
    | some e =>
      simp only [hg, Option.getD_some] at h
      rw [← h]
      exact List.getElem?_mem hg

theorem initial_table_pristine (entry : List Bool) : Pristine (initial_table entry) := by
  intro fd
  cases hl : fd_lookup (initial_table entry) fd with
  | none => rfl
  | some o =>
    have hm := lookup_mem _ _ _ hl
    simp only [initial_table, List.mem_map] at hm
    obtain ⟨p, _, hpo⟩ := hm
    split at hpo
    · simp only [Option.some.injEq] at hpo
      rw [← hpo]
      rfl
    · simp at hpo

theorem initial_leakInv (env : Env) (entry : List Bool) (filename title : CStr)
    (options : List cups_option_t) :
    LeakInv (initial_table entry) 0 (initial_state env entry filename title options) := by
  refine ⟨by simp [initial_state], 0, 0, ⟨?_, ?_⟩, ?_⟩
  · intro e he
    simp [initial_state] at he
  · simp only [initial_state, slot, owned]
    refine ⟨?_, ?_, ?_⟩ <;> simp
  · simp [initial_state, slot, owned]

theorem countP_none (t : FdTable) (h : ∀ n : Nat, t.getD n none = none) :
    open_count t = 0 := by
  induction t with
  | nil => rfl
  | cons e t ih =>
    have h0 := h 0
    simp only [List.getD_cons_zero] at h0
    have ht : ∀ n : Nat, t.getD n none = none := by
      intro n
      have := h (n + 1)
      simpa using this
    have := ih ht
    unfold open_count at this ⊢
    simp [h0, this]

theorem open_count_congr (t : FdTable) :
    ∀ t2 : FdTable, (∀ n : Nat, t.getD n none = t2.getD n none) →
      open_count t = open_count t2 := by
  induction t with
  | nil =>
    intro t2 h
    rw [countP_none t2 (fun n => by simpa using (h n).symm)]
    rfl
  | cons e t ih =>
    intro t2 h
    cases t2 with
    | nil =>
      rw [countP_none (e :: t) (fun n => by simpa using h n)]
      rfl
    | cons e2 t2 =>
      have h0 := h 0
      simp only [List.getD_cons_zero] at h0
      have ht : ∀ n : Nat, t.getD n none = t2.getD n none := by
        intro n
        have := h (n + 1)
        simpa using this
      have := ih t2 ht
      unfold open_count at this ⊢
      simp only [List.countP_cons, h0, this]
/-! ### The wait loop -/

theorem compare_pids_zero (a b : mime_filter_t) : (compare_pids a b == 0) = true ↔ a.cost = b.cost := by
  simp only [compare_pids, beq_iff_eq]
  omega

theorem wait_step_pids_sub (ws : WaitState) (c : Int × Int) (f : mime_filter_t)
    (hf : f ∈ ws.pids) : f ∈ (wait_step ws c).pids ∨ c.1 = f.cost := by
  unfold wait_step
  split
  · exact Or.inl hf
  · cases hfind : cupsArrayFind ws.pids { cost := c.1, filter := [] } with
    | none => exact Or.inl hf
    | some g =>
      simp only
      have hg : g.cost = c.1 := by
        have := List.find?_some hfind
        rw [compare_pids_zero] at this
        exact this.symm
      by_cases hc : c.1 = f.cost
      · exact Or.inr hc
      · left
        unfold cupsArrayRemove
        rw [List.mem_eraseP_of_neg]
        · exact hf
        · rw [compare_pids_zero, hg]
          exact hc

/-- When the wait loop ends, pids is empty and wait has reported every child that was
in pids. -/
theorem wait_loop_drains (cs : List (Int × Int)) :
    ∀ (ws ws2 : WaitState), wait_loop ws cs = some ws2 →
      ws2.pids = [] ∧ ∀ f ∈ ws.pids, ∃ c ∈ cs, c.1 = f.cost := by
  induction cs with
  | nil =>
    intro ws ws2 h
    rw [wait_loop] at h
    split at h
    · simp at h
    · rename_i hcount
      have hnil : ws.pids = [] := by
        simpa [cupsArrayCount] using hcount
      simp only [Option.some.injEq] at h
      rw [← h, hnil]
      simp
  | cons c cs ih =>
    intro ws ws2 h
    rw [wait_loop] at h
    split at h
    · obtain ⟨h1, h2⟩ := ih _ _ h
      refine ⟨h1, ?_⟩
      intro f hf
      rcases wait_step_pids_sub ws c f hf with hmem | hc
      · obtain ⟨c2, hc2, hcost⟩ := h2 f hmem
        exact ⟨c2, List.mem_cons_of_mem _ hc2, hcost⟩
      · exact ⟨c, List.mem_cons_self _ _, hc⟩
    · rename_i hcount
      have hnil : ws.pids = [] := by
        simpa [cupsArrayCount] using hcount
      simp only [Option.some.injEq] at h
      rw [← h, hnil]
      simp

/-- When exec_filters returns, wait has reported every child in pids. -/
theorem exec_filters_drains (env : Env) (entry : List Bool) (fs : List mime_filter_t)
    (filename title : CStr) (options : List cups_option_t) (cs : List (Int × Int)) (r : Int)
    (h : exec_filters env entry fs filename title options cs = some r) :
    ∀ f ∈ (exec_filters_spawn env entry fs filename title options).pids,
      ∃ c ∈ cs, c.1 = f.cost := by
  unfold exec_filters at h
  simp only [Option.map_eq_some'] at h
  obtain ⟨ws2, hw, _⟩ := h
  exact (wait_loop_drains cs _ _ hw).2

/-! ### Failure of open_pipe -/

theorem prepare_output_fail_slot (env : Env) (i : Nat) (st : LoopState)
    (h : env.pipe_outcome i ≠ PipeOutcome.ok) :
    slot (prepare_output env i true st).filterfds (1 - st.current) = (-1, -1) := by
  cases hoc : env.pipe_outcome i with
  | ok => exact absurd hoc h
  | pipe_fails => simp [prepare_output, open_pipe, hoc, slot_set_same]
  | fcntl_read_fails => simp [prepare_output, open_pipe, hoc, slot_set_same]
  | fcntl_write_fails => simp [prepare_output, open_pipe, hoc, slot_set_same]

/-- The input descriptor of the call made for a stage is entry 0 of slot current as
it is at the head of the loop. -/
theorem head_infd (env : Env) (i : Nat) (prog : CStr) (b : Bool) (st : LoopState)
    (hc : st.current ≤ 1) :
    (exec_filter env i prog (prepare_output env i b (close_previous st))).infd
      = (slot st.filterfds st.current).1 := by
  have hcc : (close_previous st).current = st.current := close_previous_current st
  have h1 := prepare_output_slot_current env i b (close_previous st) (by rw [hcc]; exact hc)
  rw [hcc] at h1
  rw [exec_filter_infd, prepare_output_current, hcc, h1, close_previous_slot_current st hc]

/-- When open_pipe fails for the output of a stage that is reached, exec_filter is
still called for it, with output descriptor -1, and, its pid being positive, for the
next stage, with input descriptor -1. -/
theorem pipe_failure_calls (env : Env) :
    ∀ (i : Nat) (fs : List mime_filter_t) (s : Nat) (st : LoopState), st.current ≤ 1 →
      i + 1 < fs.length → (∀ j, j ≤ i → 0 < env.fork_pid (s + j)) →
      env.pipe_outcome (s + i) ≠ PipeOutcome.ok →
      ∃ c1 c2, (loop_calls env s fs st)[i]? = some c1 ∧
        (loop_calls env s fs st)[i + 1]? = some c2 ∧ c1.outfd = -1 ∧ c2.infd = -1 := by
  intro i
  induction i with
  | zero =>
    intro fs s st hc hlen hfork hfail
    match fs, hlen with
    | f :: g :: rest, _ =>
      have h0 : 0 < env.fork_pid s := by simpa using hfork 0 (le_refl 0)
      have hfail0 : env.pipe_outcome s ≠ PipeOutcome.ok := by simpa using hfail
      rw [loop_calls]
      simp only [h0, gt_iff_lt, if_true]
      rw [loop_calls]
      simp only [List.isEmpty_cons, Bool.not_false]
      refine ⟨_, _, by simp; rfl, by simp; rfl, ?_, ?_⟩
      · rw [exec_filter_outfd, prepare_output_current, close_previous_current]
        have := prepare_output_fail_slot env s (close_previous st) hfail0
        rw [close_previous_current] at this
        rw [this]
      · rw [head_infd env (s + 1) _ _ _ (loop_advance_current_le _ _ _ _)]
        rw [loop_advance_current, loop_advance_filterfds, loop_body_filterfds, loop_body_current]
        have := prepare_output_fail_slot env s (close_previous st) hfail0
        rw [close_previous_current] at this
        rw [this]
  | succ i ih =>
    intro fs s st hc hlen hfork hfail
    match fs, hlen with
    | f :: rest, hlen =>
      have h0 : 0 < env.fork_pid s := by simpa using hfork 0 (by omega)
      have hlen2 : i + 1 < rest.length := by simpa using hlen
      have hfork2 : ∀ j, j ≤ i → 0 < env.fork_pid (s + 1 + j) := by
        intro j hj
        have := hfork (j + 1) (by omega)
        rwa [show s + 1 + j = s + (j + 1) by omega]
      have hfail2 : env.pipe_outcome (s + 1 + i) ≠ PipeOutcome.ok := by
        rwa [show s + 1 + i = s + (i + 1) by omega]
      obtain ⟨c1, c2, e1, e2, o1, o2⟩ := ih rest (s + 1)
        (loop_advance env s f (loop_body env s f (!rest.isEmpty) st))
        (loop_advance_current_le _ _ _ _) hlen2 hfork2 hfail2
      rw [loop_calls]
      simp only [h0, gt_iff_lt, if_true]
      exact ⟨c1, c2, by simpa using e1, by simpa using e2, o1, o2⟩
theorem wait_step_neg (ws : WaitState) (c : Int × Int) (h : c.1 < 0) : wait_step ws c = ws := by
  simp [wait_step, h]

/-- A report for a pid that is not in pids changes nothing. -/
theorem wait_step_miss (ws : WaitState) (c : Int × Int) (h : ∀ f ∈ ws.pids, f.cost ≠ c.1) :
    wait_step ws c = ws := by
  unfold wait_step
  split
  · rfl
  · have : cupsArrayFind ws.pids { cost := c.1, filter := [] } = none := by
      unfold cupsArrayFind
      rw [List.find?_eq_none]
      intro x hx
      rw [compare_pids_zero]
      exact fun e => h x hx e.symm
    rw [this]

theorem wait_step_sublist (ws : WaitState) (c : Int × Int) :
    List.Sublist (wait_step ws c).pids ws.pids := by
  unfold wait_step
  split
  · exact List.Sublist.refl _
  · split
    · exact List.eraseP_sublist _
    · exact List.Sublist.refl _

/-- A report for a pid that is in pids removes its record and sets retval to 1 when the
status is not 0. -/
theorem wait_step_hit (ws : WaitState) (c : Int × Int) (hc : 0 ≤ c.1)
    (hnd : (ws.pids.map (fun f => f.cost)).Nodup) (h : ∃ f ∈ ws.pids, f.cost = c.1) :
    (∀ f, f ∈ (wait_step ws c).pids ↔ f ∈ ws.pids ∧ f.cost ≠ c.1) ∧
    (wait_step ws c).retval = (if c.2 ≠ 0 then 1 else ws.retval) := by
  obtain ⟨f0, hf0, hcost0⟩ := h
  unfold wait_step
  have hneg : ¬ c.1 < 0 := by omega
  simp only [hneg, if_false]
  cases hfind : cupsArrayFind ws.pids { cost := c.1, filter := [] } with
  | none =>
    unfold cupsArrayFind at hfind
    rw [List.find?_eq_none] at hfind
    have := hfind f0 hf0
    rw [compare_pids_zero] at this
    exact absurd hcost0.symm this
  | some g =>
    have hg : g.cost = c.1 := by
      have := List.find?_some hfind
      rw [compare_pids_zero] at this
      exact this.symm
    have hgm : g ∈ ws.pids := List.mem_of_find?_eq_some hfind
    simp only
    refine ⟨?_, trivial⟩
    intro f
    unfold cupsArrayRemove
    obtain ⟨a, l1, l2, hl1, hpa, hl, her⟩ :=
      List.exists_of_eraseP (p := fun x => compare_pids g x == 0) hgm
        (by rw [compare_pids_zero])
    rw [compare_pids_zero] at hpa
    rw [hl] at hnd
    simp only [List.map_append, List.map_cons] at hnd
    have hnd2 := List.nodup_middle.mp hnd
    rw [List.nodup_cons] at hnd2
    have hnot : ∀ x ∈ l1 ++ l2, x.cost ≠ a.cost := by
      intro x hx heq
      apply hnd2.1
      rw [← List.map_append]
      exact List.mem_map.mpr ⟨x, hx, heq⟩
    rw [her, hl]
    constructor
    · intro hf
      refine ⟨?_, ?_⟩
      · rcases List.mem_append.mp hf with h1 | h2
        · exact List.mem_append_left _ h1
        · exact List.mem_append_right _ (List.mem_cons_of_mem _ h2)
      · rw [← hg, hpa]
        exact hnot f hf
    · intro ⟨hf, hne⟩
      rcases List.mem_append.mp hf with h1 | h2
      · exact List.mem_append_left _ h1
      · rcases List.mem_cons.mp h2 with h3 | h3
        · exfalso
          apply hne
          rw [h3, ← hpa, hg]
        · exact List.mem_append_right _ h3

theorem wait_loop_empty (ws : WaitState) (cs : List (Int × Int)) (h : ws.pids = []) :
    wait_loop ws cs = some ws := by
  cases cs with
  | nil => simp [wait_loop, cupsArrayCount, h]
  | cons c cs => simp [wait_loop, cupsArrayCount, h]

theorem wait_loop_cons (ws : WaitState) (c : Int × Int) (cs : List (Int × Int))
    (h : ws.pids ≠ []) : wait_loop ws (c :: cs) = wait_loop (wait_step ws c) cs := by
  have : 0 < ws.pids.length := List.length_pos.mpr h
  simp [wait_loop, cupsArrayCount, this]

/-- The wait loop ends when wait reports every child of pids, the pids being distinct
and not negative. -/
theorem wait_loop_returns (cs : List (Int × Int)) :
    ∀ (ws : WaitState), (ws.pids.map (fun f => f.cost)).Nodup →
      (∀ f ∈ ws.pids, 0 ≤ f.cost) → (∀ f ∈ ws.pids, ∃ c ∈ cs, c.1 = f.cost) →
      ∃ ws2, wait_loop ws cs = some ws2 := by
  induction cs with
  | nil =>
    intro ws _ _ hcov
    have hnil : ws.pids = [] := by
      cases hp : ws.pids with
      | nil => rfl
      | cons f l =>
        obtain ⟨c, hc, _⟩ := hcov f (by rw [hp]; simp)
        simp at hc
    exact ⟨ws, wait_loop_empty ws [] hnil⟩
  | cons c cs ih =>
    intro ws hnd hpos hcov
    by_cases hnil : ws.pids = []
    · exact ⟨ws, wait_loop_empty ws _ hnil⟩
    · rw [wait_loop_cons ws c cs hnil]
      have hsub := wait_step_sublist ws c
      apply ih
      · exact hnd.sublist (hsub.map _)
      · exact fun f hf => hpos f (hsub.subset hf)
      · intro f hf
        obtain ⟨c2, hc2, hcost⟩ := hcov f (hsub.subset hf)
        rcases List.mem_cons.mp hc2 with e | e
        · exfalso
          subst e
          have h0 : 0 ≤ c2.1 := by rw [hcost]; exact hpos f (hsub.subset hf)
          have := (wait_step_hit ws c2 h0 hnd ⟨f, hsub.subset hf, hcost.symm⟩).1 f
          exact (this.mp hf).2 hcost.symm
        · exact ⟨c2, e, hcost⟩

/-- The value of retval when the wait loop ends: it is 1 exactly when it was 1 before or
wait reported a child of pids with a status that is not 0. -/
theorem wait_loop_retval (cs : List (Int × Int)) :
    ∀ (ws ws2 : WaitState), wait_loop ws cs = some ws2 →
      (ws.pids.map (fun f => f.cost)).Nodup → (∀ f ∈ ws.pids, 0 ≤ f.cost) →
      (cs.map (fun c => c.1)).Nodup → (ws.retval = 0 ∨ ws.retval = 1) →
      (ws2.retval = 0 ∨ ws2.retval = 1) ∧
      (ws2.retval = 1 ↔
        ws.retval = 1 ∨ ∃ c ∈ cs, c.2 ≠ 0 ∧ ∃ f ∈ ws.pids, f.cost = c.1) := by
  induction cs with
  | nil =>
    intro ws ws2 h _ _ _ h01
    by_cases hnil : ws.pids = []
    · rw [wait_loop_empty ws [] hnil] at h
      simp only [Option.some.injEq] at h
      subst h
      exact ⟨h01, by simp⟩
    · have : 0 < ws.pids.length := List.length_pos.mpr hnil
      simp [wait_loop, cupsArrayCount, this] at h
  | cons c cs ih =>
    intro ws ws2 h hnd hpos hcs h01
    by_cases hnil : ws.pids = []
    · rw [wait_loop_empty ws _ hnil] at h
      simp only [Option.some.injEq] at h
      subst h
      exact ⟨h01, by simp [hnil]⟩
    · rw [wait_loop_cons ws c cs hnil] at h
      have hsub := wait_step_sublist ws c
      simp only [List.map_cons, List.nodup_cons, List.mem_map, not_exists, not_and] at hcs
      by_cases hhit : 0 ≤ c.1 ∧ ∃ f ∈ ws.pids, f.cost = c.1
      · obtain ⟨hmem, hret⟩ := wait_step_hit ws c hhit.1 hnd hhit.2
        have h01' : (wait_step ws c).retval = 0 ∨ (wait_step ws c).retval = 1 := by
          rw [hret]
          by_cases hs : c.2 ≠ 0
          · simp [hs]
          · simpa [hs] using h01
        obtain ⟨r01, riff⟩ := ih _ ws2 h (hnd.sublist (hsub.map _))
          (fun f hf => hpos f (hsub.subset hf)) hcs.2 h01'
        refine ⟨r01, ?_⟩
        rw [riff, hret]
        constructor
        · rintro (h1 | ⟨c2, hc2, hs2, f, hf, hcost⟩)
          · by_cases hs : c.2 ≠ 0
            · exact Or.inr ⟨c, List.mem_cons_self _ _, hs, hhit.2⟩
            · simp only [hs, if_false] at h1
              exact Or.inl h1
          · exact Or.inr ⟨c2, List.mem_cons_of_mem _ hc2, hs2, f, ((hmem f).mp hf).1, hcost⟩
        · rintro (h1 | ⟨c2, hc2, hs2, f, hf, hcost⟩)
          · left
            by_cases hs : c.2 ≠ 0
            · simp [hs]
            · simpa [hs] using h1
          · rcases List.mem_cons.mp hc2 with e | e
            · subst e
              left
              simp [hs2]
            · right
              refine ⟨c2, e, hs2, f, (hmem f).mpr ⟨hf, ?_⟩, hcost⟩
              intro heq
              exact hcs.1 c2 e (by rw [← hcost, heq])
      · have hmiss : ∀ f ∈ ws.pids, f.cost ≠ c.1 := by
          intro f hf heq
          apply hhit
          exact ⟨by rw [← heq]; exact hpos f hf, f, hf, heq⟩
        rw [wait_step_miss ws c hmiss] at h
        obtain ⟨r01, riff⟩ := ih ws ws2 h hnd hpos hcs.2 h01
        refine ⟨r01, ?_⟩
        rw [riff]
        constructor
        · rintro (h1 | ⟨c2, hc2, rest⟩)
          · exact Or.inl h1
          · exact Or.inr ⟨c2, List.mem_cons_of_mem _ hc2, rest⟩
        · rintro (h1 | ⟨c2, hc2, hs2, f, hf, hcost⟩)
          · exact Or.inl h1
          · rcases List.mem_cons.mp hc2 with e | e
            · subst e
              exact absurd hcost (hmiss f hf)
            · exact Or.inr ⟨c2, e, hs2, f, hf, hcost⟩

/-- Reports for pids outside a set that contains pids can be dropped from the sequence
without changing what the wait loop computes. -/
theorem wait_loop_filter (T : List Int) (cs : List (Int × Int)) :
    ∀ (ws : WaitState), (∀ f ∈ ws.pids, f.cost ∈ T) →
      wait_loop ws (cs.filter (fun c => decide (c.1 ∈ T))) = wait_loop ws cs := by
  induction cs with
  | nil => intro ws _; rfl
  | cons c cs ih =>
    intro ws hT
    by_cases hnil : ws.pids = []
    · rw [wait_loop_empty ws _ hnil, wait_loop_empty ws _ hnil]
    · have hsub := wait_step_sublist ws c
      by_cases hc : c.1 ∈ T
      · rw [List.filter_cons_of_pos (by simpa using hc), wait_loop_cons ws c _ hnil,
          wait_loop_cons ws c _ hnil]
        exact ih _ (fun f hf => hT f (hsub.subset hf))
      · rw [List.filter_cons_of_neg (by simpa using hc), wait_loop_cons ws c _ hnil]
        have hmiss : ∀ f ∈ ws.pids, f.cost ≠ c.1 := by
          intro f hf heq
          exact hc (heq ▸ hT f hf)
        rw [wait_step_miss ws c hmiss]
        exact ih ws hT
theorem loop_pids_pos (env : Env) (fs : List mime_filter_t) :
    ∀ (i : Nat), ∀ f ∈ loop_pids env i fs, 0 < f.cost := by
  induction fs with
  | nil => intro i f hf; simp [loop_pids] at hf
  | cons g rest ih =>
    intro i f hf
    rw [loop_pids] at hf
    split at hf
    · rename_i hpos
      rcases List.mem_cons.mp hf with e | e
      · rw [e]; exact hpos
      · exact ih (i + 1) f e
    · simp at hf

/-- When the children have distinct pids and wait reports every one of them,
exec_filters returns. -/
theorem exec_filters_returns (env : Env) (entry : List Bool) (fs : List mime_filter_t)
    (filename title : CStr) (options : List cups_option_t) (cs : List (Int × Int))
    (hnd : ((exec_filters_spawn env entry fs filename title options).pids.map
      (fun f => f.cost)).Nodup)
    (hcov : ∀ f ∈ (exec_filters_spawn env entry fs filename title options).pids,
      ∃ c ∈ cs, c.1 = f.cost) :
    ∃ r, exec_filters env entry fs filename title options cs = some r := by
  have hpos : ∀ f ∈ (exec_filters_spawn env entry fs filename title options).pids,
      0 ≤ f.cost := by
    intro f hf
    rw [spawn_pids] at hf
    exact le_of_lt (loop_pids_pos env fs 0 f hf)
  obtain ⟨ws2, h⟩ := wait_loop_returns cs
    { pids := (exec_filters_spawn env entry fs filename title options).pids, retval := 0 }
    hnd hpos hcov
  exact ⟨ws2.retval, by simp [exec_filters, h]⟩

/-- What exec_filters returns, for children with distinct pids and a sequence of
reports in which no pid occurs twice and every child occurs: the result is 0 or 1; it
is 1 exactly when wait reported a child of pids with a status that is not 0; it is the
same for every order of the reports; and the reports for other pids can be left out.
A spawn that failed has no part in the result. -/
theorem exec_filters_result (env : Env) (entry : List Bool) (fs : List mime_filter_t)
    (filename title : CStr) (options : List cups_option_t) (cs : List (Int × Int))
    (hnd : ((exec_filters_spawn env entry fs filename title options).pids.map
      (fun f => f.cost)).Nodup)
    (hcs : (cs.map (fun c => c.1)).Nodup)
    (hcov : ∀ f ∈ (exec_filters_spawn env entry fs filename title options).pids,
      ∃ c ∈ cs, c.1 = f.cost) :
    ∃ r, exec_filters env entry fs filename title options cs = some r ∧
      (r = 0 ∨ r = 1) ∧
      (r = 1 ↔ ∃ c ∈ cs, c.2 ≠ 0 ∧
        ∃ f ∈ (exec_filters_spawn env entry fs filename title options).pids, f.cost = c.1) ∧
      (∀ cs2, cs.Perm cs2 → exec_filters env entry fs filename title options cs2 = some r) ∧
      exec_filters env entry fs filename title options
        (cs.filter (fun c => decide (c.1 ∈
          (exec_filters_spawn env entry fs filename title options).pids.map (fun f => f.cost))))
        = some r := by
  have hpos : ∀ f ∈ (exec_filters_spawn env entry fs filename title options).pids,
      0 ≤ f.cost := by
    intro f hf
    rw [spawn_pids] at hf
    exact le_of_lt (loop_pids_pos env fs 0 f hf)
  obtain ⟨ws2, h⟩ := wait_loop_returns cs
    { pids := (exec_filters_spawn env entry fs filename title options).pids, retval := 0 }
    hnd hpos hcov
  obtain ⟨r01, riff⟩ := wait_loop_retval cs _ ws2 h hnd hpos hcs (Or.inl rfl)
  have riff2 : ws2.retval = 1 ↔ ∃ c ∈ cs, c.2 ≠ 0 ∧
      ∃ f ∈ (exec_filters_spawn env entry fs filename title options).pids, f.cost = c.1 := by
    rw [riff]
    simp
  refine ⟨ws2.retval, by simp [exec_filters, h], r01, riff2, ?_, ?_⟩
  · intro cs2 hperm
    have hcov2 : ∀ f ∈ (exec_filters_spawn env entry fs filename title options).pids,
        ∃ c ∈ cs2, c.1 = f.cost := by
      intro f hf
      obtain ⟨c, hc, e⟩ := hcov f hf
      exact ⟨c, hperm.mem_iff.mp hc, e⟩
    have hcs2 : (cs2.map (fun c => c.1)).Nodup := ((hperm.map _).nodup_iff).mp hcs
    obtain ⟨ws3, h3⟩ := wait_loop_returns cs2
      { pids := (exec_filters_spawn env entry fs filename title options).pids, retval := 0 }
      hnd hpos hcov2
    obtain ⟨q01, qiff⟩ := wait_loop_retval cs2 _ ws3 h3 hnd hpos hcs2 (Or.inl rfl)
    have heq : ws3.retval = ws2.retval := by
      have e1 : ws3.retval = 1 ↔ ws2.retval = 1 := by
        rw [qiff, riff]
        constructor
        · rintro (h1 | ⟨c, hc, rest⟩)
          · exact Or.inl h1
          · exact Or.inr ⟨c, hperm.mem_iff.mpr hc, rest⟩
        · rintro (h1 | ⟨c, hc, rest⟩)
          · exact Or.inl h1
          · exact Or.inr ⟨c, hperm.mem_iff.mp hc, rest⟩
      rcases q01 with a | a <;> rcases r01 with b | b
      · rw [a, b]
      · exact absurd (e1.mpr b) (by rw [a]; decide)
      · exact absurd (e1.mp a) (by rw [b]; decide)
      · rw [a, b]
    simp [exec_filters, h3, heq]
  · unfold exec_filters
    simp only
    rw [wait_loop_filter _ cs _ (fun f hf => List.mem_map.mpr ⟨f, hf, rfl⟩), h]
    rfl
/-! ### Helpers for the concrete instances -/

theorem pipesAbove_of_check (log : List LogEntry) (h : pipes_above_check log = true) :
    PipesAbove log := by
  intro e he r w hev
  unfold pipes_above_check at h
  rw [List.all_eq_true] at h
  have := h e he
  rw [hev] at this
  simpa using this

theorem child_fd0_of_neg (t : FdTable) (infd outfd : Int) (h : infd < 0) :
    fd_lookup (exec_filter_child t infd outfd) 0
      = some (FileObj.devNull OpenMode.O_RDONLY) := by
  have hs0 := child_stdin_fd0 t infd (fun hp => absurd hp (by omega))
  have hne : infd ≠ 0 := by omega
  have hnp : ¬ 0 < infd := by omega
  simp only [hne, hnp, if_false] at hs0
  have hs0n : fd_lookup (child_stdin t infd) 0 ≠ none := by rw [hs0]; simp
  have ho0 := child_stdout_keeps0 (child_stdin t infd) outfd hs0n
  unfold exec_filter_child
  rw [child_aux_keeps _ 0 (Or.inl rfl) (by rw [ho0]; exact hs0n), ho0, hs0]

/-! ### escape_options: what it writes fits in what it allocates -/

theorem copy_value_length (value : CStr) : ∀ buf : CStr,
    buf.length + value.length ≤ (copy_value buf value).length ∧
    (copy_value buf value).length ≤ buf.length + 2 * value.length := by
  induction value with
  | nil => intro buf; simp [copy_value]
  | cons c vptr ih =>
    intro buf
    rw [copy_value]
    by_cases hc : needs_escape c = true
    · rw [if_pos hc]
      have h := ih ((buf ++ ['\\']) ++ [c])
      simp only [List.length_append, List.length_cons, List.length_nil] at h ⊢
      omega
    · rw [if_neg hc]
      have h := ih (buf ++ [c])
      simp only [List.length_append, List.length_cons, List.length_nil] at h ⊢
      omega

theorem escape_bytes_foldl (options : List cups_option_t) : ∀ b : Nat,
    options.foldl (fun bytes o => bytes + (2 * (o.name.length + o.value.length) + 2)) b
      = b + (options.map (fun o => 2 * (o.name.length + o.value.length) + 2)).sum := by
  induction options with
  | nil => intro b; simp
  | cons o rest ih =>
    intro b
    rw [List.foldl_cons, ih, List.map_cons, List.sum_cons]
    omega

theorem escape_options_bytes_eq (options : List cups_option_t) :
    escape_options_bytes options
      = 1 + (options.map (fun o => 2 * (o.name.length + o.value.length) + 2)).sum :=
  escape_bytes_foldl options 1

theorem escape_loop_length_le (options : List cups_option_t) : ∀ buf : CStr,
    (escape_loop options buf).length
      ≤ buf.length + (options.map (fun o => 2 * (o.name.length + o.value.length) + 2)).sum := by
  induction options with
  | nil => intro buf; simp [escape_loop]
  | cons o rest ih =>
    intro buf
    rw [escape_loop, List.map_cons, List.sum_cons]
    by_cases hc : o.name = "copies".toList
    · rw [if_pos hc]
      have h := ih buf
      omega
    · rw [if_neg hc]
      have h := ih (copy_value ((if 0 < buf.length then buf ++ [' '] else buf) ++ o.name ++ ['='])
        o.value)
      have hv := (copy_value_length o.value
        ((if 0 < buf.length then buf ++ [' '] else buf) ++ o.name ++ ['='])).2
      have hb : (if 0 < buf.length then buf ++ [' '] else buf).length ≤ buf.length + 1 := by
        split <;> simp
      simp only [List.length_append, List.length_cons, List.length_nil] at h hv
      simp only []
      omega

theorem escape_loop_extent_eq (options : List cups_option_t) : ∀ (buf : CStr) (ext : Nat),
    ext ≤ buf.length + 1 →
    escape_loop_extent options buf ext = (escape_loop options buf).length + 1 := by
  induction options with
  | nil =>
    intro buf ext h
    simp only [escape_loop_extent, escape_loop]
    omega
  | cons o rest ih =>
    intro buf ext h
    rw [escape_loop_extent, escape_loop]
    by_cases hc : o.name = "copies".toList
    · rw [if_pos hc, if_pos hc]
      exact ih buf ext h
    · rw [if_neg hc, if_neg hc]
      simp only []
      apply ih
      have hv := (copy_value_length o.value
        ((if 0 < buf.length then buf ++ [' '] else buf) ++ o.name ++ ['='])).1
      have hb : buf.length ≤ (if 0 < buf.length then buf ++ [' '] else buf).length := by
        split <;> simp
      simp only [List.length_append, List.length_cons, List.length_nil] at hv ⊢
      omega

/-! ### The claims -/

/-- C1. Pipe wiring of exec_filters.  For a chain of at least one filter in which every
open_pipe call and every exec_filter call succeeds: for each stage i that has a
successor, the output descriptor passed for stage i is the write end, and the input
descriptor passed for stage i + 1 is the read end, of the pipe created in iteration
i, and both ends are open in the parent at both calls; the output descriptor passed
for the last stage is 1. -/
theorem exec_filters_pipe_wiring (env : Env) (entry : List Bool) (fs : List mime_filter_t)
    (filename title : CStr) (options : List cups_option_t)
    (hlen : 1 ≤ fs.length)
    (hfork : ∀ i, i < fs.length → 0 < env.fork_pid i)
    (hpipe : ∀ i, i + 1 < fs.length → env.pipe_outcome i = PipeOutcome.ok) :
    (∀ i, i + 1 < fs.length →
      ∃ (c1 c2 : ExecCall) (r w : Nat),
        (exec_filters_spawn env entry fs filename title options).calls[i]? = some c1 ∧
        (exec_filters_spawn env entry fs filename title options).calls[i + 1]? = some c2 ∧
        c1.outfd = (w : Int) ∧ c2.infd = (r : Int) ∧
        fd_lookup c1.fdt r = some (FileObj.pipeRead i) ∧
        fd_lookup c1.fdt w = some (FileObj.pipeWrite i) ∧
        fd_lookup c2.fdt r = some (FileObj.pipeRead i) ∧
        fd_lookup c2.fdt w = some (FileObj.pipeWrite i)) ∧
    (∃ c, (exec_filters_spawn env entry fs filename title options).calls[fs.length - 1]? = some c ∧
      c.outfd = 1) := by
  have hall : ∀ j, j < fs.length → 0 < env.fork_pid (0 + j) := by
    intro j hj; simpa using hfork j hj
  have hpall : ∀ j, j + 1 < fs.length → env.pipe_outcome (0 + j) = PipeOutcome.ok := by
    intro j hj; simpa using hpipe j hj
  have hw := loop_calls_wired env fs 0 _ (initial_wiring env entry filename title options)
    hall hpall
  have hcl : (loop_calls env 0 fs (initial_state env entry filename title options)).length
      = fs.length := by
    have := congrArg List.length
      (loop_calls_all env fs 0 (initial_state env entry filename title options) hall)
    simpa [List.enumFrom_length] using this
  rw [spawn_calls]
  constructor
  · intro i hi
    obtain ⟨c1, c2, e1, e2, r, w, j1, j2, j3, j4, j5, j6⟩ := wired_at _ 0 i hw (by rw [hcl]; exact hi)
    rw [Nat.zero_add] at j3 j4 j5 j6
    exact ⟨c1, c2, r, w, e1, e2, j1, j2, j3, j4, j5, j6⟩
  · have hlt : fs.length - 1 < (loop_calls env 0 fs
        (initial_state env entry filename title options)).length := by
      rw [hcl]; omega
    refine ⟨_, List.getElem?_eq_getElem hlt, ?_⟩
    apply wired_last _ 0 hw
    rw [List.getLast?_eq_getElem?, hcl, List.getElem?_eq_getElem hlt]

/-- Instance of C1 on the sample chain: descriptors 4 and 3 are the pipe of stage 0,
descriptors 6 and 5 the pipe of stage 1. -/
theorem exec_filters_pipe_wiring_witness :
    (exec_filters_spawn sample_env sample_entry sample_filters "in.txt".toList "job".toList
        sample_options).calls.map (fun c => (c.infd, c.outfd)) = [(-1, 4), (3, 6), (5, 1)] ∧
    ∃ c, (exec_filters_spawn sample_env sample_entry sample_filters "in.txt".toList "job".toList
        sample_options).calls[sample_filters.length - 1]? = some c ∧ c.outfd = 1 :=
  ⟨by decide,
    (exec_filters_pipe_wiring sample_env sample_entry sample_filters "in.txt".toList "job".toList
      sample_options (by decide) (by decide) (fun _ _ => rfl)).2⟩

/-- C2, the failing input: on a chain of one filter whose exec_filter call returns -1, no
child is spawned and exec_filters returns 0; and on the sample chain, when stage 1
fails to spawn and the child of stage 0 exits with status 0, exec_filters returns 0
as well. -/
theorem exec_filters_spawn_failure_returns_zero :
    (exec_filters_spawn { sample_env with fork_pid := fun _ => -1 } sample_entry
        [⟨0, "pstops".toList⟩] "in.txt".toList "job".toList sample_options).calls.map
      (fun c => c.pid) = [-1] ∧
    exec_filters { sample_env with fork_pid := fun _ => -1 } sample_entry
        [⟨0, "pstops".toList⟩] "in.txt".toList "job".toList sample_options [] = some 0 ∧
    exec_filters { sample_env with fork_pid := fun i => if i = 1 then -1 else 100 + i }
        sample_entry sample_filters "in.txt".toList "job".toList sample_options [(100, 0)]
      = some 0 := by
  decide

/-- C3. The string returned by escape_options is the reference string: the tokens name,
equals sign, escaped value of the options not named copies, in input order, joined
by exactly one space.  In particular the empty option list gives the empty string, a
copies option in first or last position leaves no space behind, and the value
"a b" is written as "a\ b". -/
theorem escape_options_eq_spec :
    (∀ options : List cups_option_t, escape_options options = escape_options_spec options) ∧
    escape_options [] = [] ∧
    (∀ (v : CStr) (options : List cups_option_t),
      escape_options (⟨"copies".toList, v⟩ :: options) = escape_options options ∧
      escape_options (options ++ [⟨"copies".toList, v⟩]) = escape_options options) ∧
    esc "a b".toList = "a\\ b".toList ∧
    escape_options [⟨"media".toList, "a b".toList⟩] = "media=a\\ b".toList := by
  refine ⟨escape_options_refines, rfl, ?_, by decide, by decide⟩
  intro v options
  constructor
  · rw [escape_options_refines, escape_options_refines, escape_options_spec, escape_options_spec,
      option_tokens_skip _ _ rfl]
  · rw [escape_options_refines, escape_options_refines, escape_options_spec, escape_options_spec]
    congr 1
    simp [option_tokens, List.filter_append]

/-- C4. Spawn count of exec_filters.  When every exec_filter call returns a positive pid,
exec_filter is called once per filter, in chain order, and pids holds one record per
filter, with the pid of its stage.  When the call for stage k is the first to return
a pid that is not positive, exec_filter has been called for stages 0 to k only, and
pids holds the records of the k stages before k, none being taken back. -/
theorem exec_filters_spawn_count (env : Env) (entry : List Bool) (fs : List mime_filter_t)
    (filename title : CStr) (options : List cups_option_t) :
    ((∀ i, i < fs.length → 0 < env.fork_pid i) →
      (exec_filters_spawn env entry fs filename title options).calls.length = fs.length ∧
      (exec_filters_spawn env entry fs filename title options).calls.map
          (fun c => (c.program, c.pid))
        = fs.enum.map (fun p => (resolve_program env.ServerBin p.2, env.fork_pid p.1)) ∧
      (exec_filters_spawn env entry fs filename title options).pids.length = fs.length ∧
      (exec_filters_spawn env entry fs filename title options).pids
        = fs.enum.map (fun p => { p.2 with cost := env.fork_pid p.1 })) ∧
    (∀ k, k < fs.length → (∀ i, i < k → 0 < env.fork_pid i) → env.fork_pid k ≤ 0 →
      (exec_filters_spawn env entry fs filename title options).calls.length = k + 1 ∧
      (exec_filters_spawn env entry fs filename title options).calls.map
          (fun c => (c.program, c.pid))
        = (fs.take (k + 1)).enum.map
            (fun p => (resolve_program env.ServerBin p.2, env.fork_pid p.1)) ∧
      (exec_filters_spawn env entry fs filename title options).pids.length = k ∧
      (exec_filters_spawn env entry fs filename title options).pids
        = (fs.take k).enum.map (fun p => { p.2 with cost := env.fork_pid p.1 })) := by
  constructor
  · intro hall
    have hall2 : ∀ j, j < fs.length → 0 < env.fork_pid (0 + j) := by
      intro j hj; simpa using hall j hj
    have hc := loop_calls_all env fs 0 (initial_state env entry filename title options) hall2
    have hp := loop_pids_all env fs 0 hall2
    rw [spawn_calls, spawn_pids]
    refine ⟨?_, hc, ?_, hp⟩
    · have := congrArg List.length hc
      simpa [List.enumFrom_length] using this
    · rw [hp]
      simp [List.enumFrom_length]
  · intro k hk hok hfail
    have hok2 : ∀ j, j < k → 0 < env.fork_pid (0 + j) := by
      intro j hj; simpa using hok j hj
    have hfail2 : env.fork_pid (0 + k) ≤ 0 := by simpa using hfail
    have hc := loop_calls_upto env k fs 0 (initial_state env entry filename title options)
      hk hok2 hfail2
    have hp := loop_pids_upto env k fs 0 hk hok2 hfail2
    rw [spawn_calls, spawn_pids]
    refine ⟨?_, hc, ?_, hp⟩
    · have := congrArg List.length hc
      simp only [List.length_map, List.enumFrom_length, List.length_take] at this
      omega
    · rw [hp]
      simp only [List.length_map, List.enumFrom_length, List.length_take]
      omega

/-- Instance of C4: the sample chain when every stage is spawned, and when stage 1
fails to spawn. -/
theorem exec_filters_spawn_count_witness :
    ((exec_filters_spawn sample_env sample_entry sample_filters "in.txt".toList "job".toList
        sample_options).calls.length = 3 ∧
      (exec_filters_spawn sample_env sample_entry sample_filters "in.txt".toList "job".toList
        sample_options).pids.map (fun f => f.cost) = [100, 101, 102]) ∧
    ((exec_filters_spawn { sample_env with fork_pid := fun i => if i = 1 then -1 else 100 + i }
        sample_entry sample_filters "in.txt".toList "job".toList sample_options).calls.length = 2 ∧
      (exec_filters_spawn { sample_env with fork_pid := fun i => if i = 1 then -1 else 100 + i }
        sample_entry sample_filters "in.txt".toList "job".toList
        sample_options).pids.map (fun f => f.cost) = [100]) := by
  have h1 := (exec_filters_spawn_count sample_env sample_entry sample_filters "in.txt".toList
    "job".toList sample_options).1 (by decide)
  have h2 := (exec_filters_spawn_count
    { sample_env with fork_pid := fun i => if i = 1 then -1 else 100 + i }
    sample_entry sample_filters "in.txt".toList "job".toList sample_options).2 1
    (by decide) (by decide) (by decide)
  refine ⟨⟨h1.1, ?_⟩, ⟨h2.1, ?_⟩⟩
  · rw [h1.2.2.2]; decide
  · rw [h2.2.2.2]; decide

/-- C5. No descriptor leak in exec_filters.  Whatever the outcomes of the open_pipe and
exec_filter calls, if every descriptor returned by pipe is greater than 1, then when
the wait loop is reached every descriptor refers to what it referred to on entry (so
every pipe end the parent opened is closed and the count of open descriptors is the
count on entry), every close was issued on a descriptor that was open at that moment,
and after every call the parent held at most two pipes open. -/
theorem exec_filters_no_descriptor_leak (env : Env) (entry : List Bool)
    (fs : List mime_filter_t) (filename title : CStr) (options : List cups_option_t)
    (habove : ∀ e ∈ (exec_filters_spawn env entry fs filename title options).proc.log,
      ∀ r w, e.event = SysEvent.pipe r w → 1 < r ∧ 1 < w) :
    (∀ fd, fd_lookup (exec_filters_spawn env entry fs filename title options).proc.fdt fd
        = fd_lookup (initial_table entry) fd) ∧
    open_count (exec_filters_spawn env entry fs filename title options).proc.fdt
        = open_count (initial_table entry) ∧
    (∀ e ∈ (exec_filters_spawn env entry fs filename title options).proc.log,
      ∀ fd b, e.event = SysEvent.close fd b → b = true) ∧
    (∀ e ∈ (exec_filters_spawn env entry fs filename title options).proc.log,
      (pipes_open e.after).length ≤ 2) := by
  have hp := initial_table_pristine entry
  have hab : PipesAbove (exec_filters_spawn env entry fs filename title options).proc.log :=
    habove
  unfold exec_filters_spawn at hab ⊢
  obtain ⟨more, hmore⟩ := close_remaining_log
    (exec_filters_loop env 0 fs (initial_state env entry filename title options))
  have hab2 : PipesAbove
      (exec_filters_loop env 0 fs (initial_state env entry filename title options)).proc.log := by
    rw [hmore] at hab
    exact pipesAbove_of_append _ _ hab
  obtain ⟨j, hinv⟩ := leak_loop (initial_table entry) hp env fs 0 _
    (fun _ => initial_leakInv env entry filename title options) hab2
  obtain ⟨hlog, htab⟩ := leak_close_remaining (initial_table entry) hp j _ hinv
  refine ⟨htab, ?_, fun e he => (hlog e he).1, fun e he => (hlog e he).2⟩
  apply open_count_congr
  intro n
  have := htab (n : Int)
  rwa [fd_lookup_nat, fd_lookup_nat] at this

/-- Instance of C5 on the sample chain when the fcntl call of the second open_pipe
fails and the third stage fails to spawn. -/
theorem exec_filters_no_descriptor_leak_witness :
    (exec_filters_spawn
        { sample_env with
          pipe_outcome := fun i => if i = 1 then PipeOutcome.fcntl_read_fails else PipeOutcome.ok
          fork_pid := fun i => if i = 2 then -1 else 100 + i }
        sample_entry sample_filters "in.txt".toList "job".toList sample_options).proc.log.length
      = 6 ∧
    open_count (exec_filters_spawn
        { sample_env with
          pipe_outcome := fun i => if i = 1 then PipeOutcome.fcntl_read_fails else PipeOutcome.ok
          fork_pid := fun i => if i = 2 then -1 else 100 + i }
        sample_entry sample_filters "in.txt".toList "job".toList sample_options).proc.fdt
      = 3 := by
  have h := exec_filters_no_descriptor_leak
    { sample_env with
      pipe_outcome := fun i => if i = 1 then PipeOutcome.fcntl_read_fails else PipeOutcome.ok
      fork_pid := fun i => if i = 2 then -1 else 100 + i }
    sample_entry sample_filters "in.txt".toList "job".toList sample_options
    (pipesAbove_of_check _ (by decide))
  refine ⟨by decide, ?_⟩
  rw [h.2.1]
  decide

/-- C6, as stated, fails: an option whose name has a space (or an equals sign) is copied
unescaped, and the string then has a token that begins with copies=. -/
theorem escape_options_copies_token_counterexample :
    (∃ tok ∈ split_tokens (escape_options [⟨"a copies".toList, "2".toList⟩]),
      "copies=".toList <+: tok) ∧
    (∃ tok ∈ split_tokens (escape_options [⟨"copies=x".toList, "2".toList⟩]),
      "copies=".toList <+: tok) := by
  constructor
  · exact ⟨"copies=2".toList, by decide, by decide⟩
  · exact ⟨"copies=x=2".toList, by decide, by decide⟩

/-- C6 (amended). For every option list in which no option name contains a space or an
equals sign, no token of the string returned by escape_options begins with
copies=, the tokens being cut at the spaces that are not escaped by a backslash. -/
theorem escape_options_no_copies_token (options : List cups_option_t)
    (hnames : ∀ o ∈ options, ' ' ∉ o.name ∧ '=' ∉ o.name) :
    ∀ tok ∈ split_tokens (escape_options options), ¬ ("copies=".toList <+: tok) := by
  intro tok htok hpre
  rw [escape_options_refines, escape_options_spec] at htok
  by_cases hne : option_tokens options = []
  · rw [hne] at htok
    simp [List.intercalate, split_tokens, split_tokens_from] at htok
    subst htok
    simp at hpre
  · have hall : ∀ t ∈ option_tokens options, IsOptionToken t := by
      intro t ht
      simp only [option_tokens, List.mem_map, List.mem_filter] at ht
      obtain ⟨o, ⟨ho, _⟩, rfl⟩ := ht
      exact ⟨o.name, o.value, (hnames o ho).1, rfl⟩
    rw [split_intercalate _ hall hne] at htok
    simp only [option_tokens, List.mem_map, List.mem_filter] at htok
    obtain ⟨o, ⟨ho, hnc⟩, rfl⟩ := htok
    have hkey := name_eq_of_starts '=' (esc o.value) "copies".toList o.name (by decide) (hnames o ho).2
      (by simpa using hpre)
    simp at hnc
    exact hnc hkey.symm

/-- Instance of C6 (amended) on the sample options. -/
theorem escape_options_no_copies_token_witness :
    (∀ o ∈ sample_options, ' ' ∉ o.name ∧ '=' ∉ o.name) ∧
    split_tokens (escape_options sample_options) = ["media=a4\\ tray".toList] ∧
    ∀ tok ∈ split_tokens (escape_options sample_options), ¬ ("copies=".toList <+: tok) :=
  ⟨by decide, by decide, escape_options_no_copies_token sample_options (by decide)⟩

/-- C7. Argument vector built by exec_filters, when every spawn succeeds.  Stage 0 is
launched with argv[0..6] equal to the name cupsfilter, "0", the user name, the job
title, the copies value (the value of the copies option, "1" without one), the string
of escape_options, and the input file name, followed by the terminating NULL.  Every
later stage is launched with the same first six entries and with argv[6] empty
(NULL). -/
theorem exec_filters_argv (env : Env) (entry : List Bool) (fs : List mime_filter_t)
    (filename title : CStr) (options : List cups_option_t)
    (hfork : ∀ i, i < fs.length → 0 < env.fork_pid i) :
    (exec_filters_spawn env entry fs filename title options).calls.map (fun c => c.argv)
      = (List.range fs.length).map (fun i =>
          [some "cupsfilter".toList, some "0".toList, some env.cupsUser, some title,
            some ((cupsGetOption "copies".toList options).getD "1".toList),
            some (escape_options options),
            if i = 0 then some filename else none,
            none]) := by
  have hall : ∀ j, j < fs.length → 0 < env.fork_pid (0 + j) := by
    intro j hj; simpa using hfork j hj
  rw [spawn_calls, loop_calls_argv env fs 0 _ hall]
  cases fs with
  | nil => simp
  | cons f rest =>
    simp only [List.length_cons, List.range_succ_eq_map, List.map_cons, List.map_map]
    simp only [initial_state, initial_argv]
    simp [Function.comp_def, List.map_const']

/-- Instance of C7 on the sample chain. -/
theorem exec_filters_argv_witness :
    (exec_filters_spawn sample_env sample_entry sample_filters "in.txt".toList "job".toList
        sample_options).calls.map (fun c => c.argv)
      = [[some "cupsfilter".toList, some "0".toList, some "lp".toList, some "job".toList,
            some "2".toList, some "media=a4\\ tray".toList, some "in.txt".toList, none],
          [some "cupsfilter".toList, some "0".toList, some "lp".toList, some "job".toList,
            some "2".toList, some "media=a4\\ tray".toList, none, none],
          [some "cupsfilter".toList, some "0".toList, some "lp".toList, some "job".toList,
            some "2".toList, some "media=a4\\ tray".toList, none, none]] := by
  rw [exec_filters_argv sample_env sample_entry sample_filters "in.txt".toList "job".toList
    sample_options (by decide)]
  decide

/-- C8, as stated, fails: on the sample chain descriptor 0 of the parent is the file it
had on entry, and the setup of the child of stage 0 closes it and binds it to the
null device. -/
theorem exec_filters_stage0_stdin_counterexample :
    (exec_filters_spawn sample_env sample_entry sample_filters "in.txt".toList "job".toList
        sample_options).calls.head?.map
      (fun c => (c.infd, fd_lookup c.fdt 0, fd_lookup (exec_filter_child c.fdt c.infd c.outfd) 0))
      = some (-1, some (FileObj.inherited 0), some (FileObj.devNull OpenMode.O_RDONLY)) := by
  decide

/-- C8 (amended). Stage 0 standard input: for every non-empty chain, exec_filters passes
the input descriptor -1 for stage 0, so that the setup of the child closes descriptor
0 and binds it to the null device opened for reading, never to a pipe; the input file
reaches stage 0 only as the file name in argv[6]. -/
theorem exec_filters_stage0_stdin (env : Env) (entry : List Bool) (f : mime_filter_t)
    (rest : List mime_filter_t) (filename title : CStr) (options : List cups_option_t) :
    ∃ c more,
      (exec_filters_spawn env entry (f :: rest) filename title options).calls = c :: more ∧
      c.infd = -1 ∧
      fd_lookup (exec_filter_child c.fdt c.infd c.outfd) 0
        = some (FileObj.devNull OpenMode.O_RDONLY) ∧
      c.argv[6]? = some (some filename) := by
  rw [spawn_calls, loop_calls]
  have hin : (exec_filter env 0 (resolve_program env.ServerBin f)
      (prepare_output env 0 (!rest.isEmpty)
        (close_previous (initial_state env entry filename title options)))).infd = -1 := by
    rw [head_infd env 0 _ _ _ (by simp [initial_state])]
    simp [initial_state, slot]
  refine ⟨_, _, rfl, hin, ?_, ?_⟩
  · exact child_fd0_of_neg _ _ _ (by rw [hin]; decide)
  · simp [exec_filter, prepare_output_argv, close_previous_argv, initial_state, initial_argv]

/-- C9, as stated, fails at output descriptor 0: it is non-negative and differs from 1,
yet standard output of the child is bound to the null device and is not a duplicate
of descriptor 0. -/
theorem exec_filter_output_zero_counterexample :
    fd_lookup (initial_table sample_entry) 0 = some (FileObj.inherited 0) ∧
    fd_lookup (exec_filter_child (initial_table sample_entry) 0 0) 1
      = some (FileObj.devNull OpenMode.O_WRONLY) := by
  decide

/-- C9 (amended). Descriptor rule of exec_filter in the child, for descriptors that are
open when they are used.  Standard input is left alone when infd = 0, is a duplicate
of infd when infd is positive, and is the null device opened for reading when infd is
negative.  Standard output is left alone when outfd = 1, is a duplicate of outfd when
outfd is greater than 1, and is the null device opened for writing when outfd is 0 or
negative. -/
theorem exec_filter_descriptor_rule (t : FdTable) (infd outfd : Int)
    (h0 : infd = 0 → fd_lookup t 0 ≠ none)
    (hin : 0 < infd → fd_lookup t infd ≠ none)
    (h1 : outfd = 1 → fd_lookup t 1 ≠ none)
    (hout : 1 < outfd → fd_lookup t outfd ≠ none) :
    fd_lookup (exec_filter_child t infd outfd) 0 =
      (if infd = 0 then fd_lookup t 0
       else if 0 < infd then fd_lookup t infd
       else some (FileObj.devNull OpenMode.O_RDONLY)) ∧
    fd_lookup (exec_filter_child t infd outfd) 1 =
      (if outfd = 1 then fd_lookup t 1
       else if 1 < outfd then fd_lookup t outfd
       else some (FileObj.devNull OpenMode.O_WRONLY)) := by
  have hs0 := child_stdin_fd0 t infd hin
  have hs0n : fd_lookup (child_stdin t infd) 0 ≠ none := by
    rw [hs0]
    by_cases c0 : infd = 0
    · simpa [c0] using h0 c0
    · by_cases cp : 0 < infd
      · simpa [c0, cp] using hin cp
      · simp [c0, cp]
  have hout2 : 1 < outfd → fd_lookup (child_stdin t infd) outfd ≠ none := by
    intro h
    rw [child_stdin_other t infd outfd (by omega)]
    exact hout h
  have ho1 := child_stdout_fd1 (child_stdin t infd) outfd hs0n hout2
  have ho0 := child_stdout_keeps0 (child_stdin t infd) outfd hs0n
  have ho1v : fd_lookup (child_stdout (child_stdin t infd) outfd) 1 =
      (if outfd = 1 then fd_lookup t 1
       else if 1 < outfd then fd_lookup t outfd
       else some (FileObj.devNull OpenMode.O_WRONLY)) := by
    rw [ho1]
    by_cases c1 : outfd = 1
    · simp only [c1, if_true]
      exact child_stdin_other t infd 1 (by decide)
    · by_cases cp : 1 < outfd
      · simp only [c1, cp, if_true, if_false]
        exact child_stdin_other t infd outfd (by omega)
      · simp [c1, cp]
  have ho1n : fd_lookup (child_stdout (child_stdin t infd) outfd) 1 ≠ none := by
    rw [ho1v]
    by_cases c1 : outfd = 1
    · simpa [c1] using h1 c1
    · by_cases cp : 1 < outfd
      · simpa [c1, cp] using hout cp
      · simp [c1, cp]
  have ho0n : fd_lookup (child_stdout (child_stdin t infd) outfd) 0 ≠ none := by
    rw [ho0]; exact hs0n
  unfold exec_filter_child
  rw [child_aux_keeps _ 0 (Or.inl rfl) ho0n, child_aux_keeps _ 1 (Or.inr rfl) ho1n, ho0, hs0, ho1v]
  exact ⟨rfl, rfl⟩

/-- Instance of C9 (amended): a table with descriptors 0 to 6 open, input descriptor 3 and
output descriptor 6. -/
theorem exec_filter_descriptor_rule_witness :
    fd_lookup (exec_filter_child (initial_table [true, true, true, true, true, true, true]) 3 6) 0
      = some (FileObj.inherited 3) ∧
    fd_lookup (exec_filter_child (initial_table [true, true, true, true, true, true, true]) 3 6) 1
      = some (FileObj.inherited 6) := by
  have h := exec_filter_descriptor_rule (initial_table [true, true, true, true, true, true, true])
    3 6 (by decide) (by decide) (by decide) (by decide)
  simpa using h

/-- C10. Defect of exec_filters at a failure of pipe creation.  On the sample chain of
three filters with every call of pipe failing, open_pipe returns -1 for the output of
stage 0 and leaves -1 in both descriptors, yet exec_filter is called for all three
stages, with -1 in place of the pipe descriptors, and exec_filters returns 0, not 1, when
the three children exit with status 0.  The claim asks for no call from stage 0 on and
for the result 1, as the header of exec_filters documents (0 on success, 1 on error). -/
theorem exec_filters_pipe_failure_returns_zero :
    (open_pipe PipeOutcome.pipe_fails 0
      (initial_state { sample_env with pipe_outcome := fun _ => PipeOutcome.pipe_fails }
        sample_entry "in.txt".toList "job".toList sample_options).proc).1 = -1 ∧
    (open_pipe PipeOutcome.pipe_fails 0
      (initial_state { sample_env with pipe_outcome := fun _ => PipeOutcome.pipe_fails }
        sample_entry "in.txt".toList "job".toList sample_options).proc).2.1 = (-1, -1) ∧
    (exec_filters_spawn { sample_env with pipe_outcome := fun _ => PipeOutcome.pipe_fails }
        sample_entry sample_filters "in.txt".toList "job".toList sample_options).calls.map
      (fun c => (c.infd, c.outfd, c.pid)) = [(-1, -1, 100), (-1, -1, 101), (-1, 1, 102)] ∧
    exec_filters { sample_env with pipe_outcome := fun _ => PipeOutcome.pipe_fails }
        sample_entry sample_filters "in.txt".toList "job".toList sample_options
        [(100, 0), (101, 0), (102, 0)] = some 0 := by
  decide

/-- The defect at a failure of pipe creation, for every chain: the result of open_pipe
is discarded (line 588).  If the stages up to i are
spawned and open_pipe fails for the output of stage i (it returns -1), exec_filter is
still called for stage i, with output descriptor -1, and for stage i + 1, with input
descriptor -1, so that standard input of stage i + 1 is the null device.  The one part
of the expected behaviour that the code does have is the draining: exec_filters returns
only when wait has reported every child that was spawned, and it does return when wait
reports every one of them, their pids being distinct. -/
theorem exec_filters_pipe_failure (env : Env) (entry : List Bool) (fs : List mime_filter_t)
    (filename title : CStr) (options : List cups_option_t) (i : Nat)
    (hnext : i + 1 < fs.length)
    (hfork : ∀ j, j ≤ i → 0 < env.fork_pid j)
    (hfail : env.pipe_outcome i ≠ PipeOutcome.ok) :
    (∀ p, (open_pipe (env.pipe_outcome i) i p).1 = -1 ∧
      (open_pipe (env.pipe_outcome i) i p).2.1 = (-1, -1)) ∧
    (∃ c1 c2,
      (exec_filters_spawn env entry fs filename title options).calls[i]? = some c1 ∧
      (exec_filters_spawn env entry fs filename title options).calls[i + 1]? = some c2 ∧
      c1.outfd = -1 ∧ c2.infd = -1 ∧
      fd_lookup (exec_filter_child c2.fdt c2.infd c2.outfd) 0
        = some (FileObj.devNull OpenMode.O_RDONLY)) ∧
    (∀ cs r, exec_filters env entry fs filename title options cs = some r →
      ∀ f ∈ (exec_filters_spawn env entry fs filename title options).pids,
        ∃ c ∈ cs, c.1 = f.cost) ∧
    (∀ cs, ((exec_filters_spawn env entry fs filename title options).pids.map
        (fun f => f.cost)).Nodup →
      (∀ f ∈ (exec_filters_spawn env entry fs filename title options).pids,
        ∃ c ∈ cs, c.1 = f.cost) →
      ∃ r, exec_filters env entry fs filename title options cs = some r) := by
  refine ⟨?_, ?_, ?_, ?_⟩
  · intro p
    cases hoc : env.pipe_outcome i with
    | ok => exact absurd hoc hfail
    | pipe_fails => exact ⟨rfl, rfl⟩
    | fcntl_read_fails => exact ⟨rfl, rfl⟩
    | fcntl_write_fails => exact ⟨rfl, rfl⟩
  · rw [spawn_calls]
    obtain ⟨c1, c2, e1, e2, o1, o2⟩ := pipe_failure_calls env i fs 0
      (initial_state env entry filename title options) (by simp [initial_state]) hnext
      (fun j hj => by simpa using hfork j hj) (by simpa using hfail)
    exact ⟨c1, c2, e1, e2, o1, o2, child_fd0_of_neg _ _ _ (by rw [o2]; decide)⟩
  · intro cs r h
    exact exec_filters_drains env entry fs filename title options cs r h
  · intro cs hnd hcov
    exact exec_filters_returns env entry fs filename title options cs hnd hcov

/-- Instance of exec_filters_pipe_failure: the sample chain when pipe fails for the
output of stage 1, and wait reports the three children. -/
theorem exec_filters_pipe_failure_witness :
    (exec_filters_spawn
        { sample_env with
          pipe_outcome := fun i => if i = 1 then PipeOutcome.pipe_fails else PipeOutcome.ok }
        sample_entry sample_filters "in.txt".toList "job".toList sample_options).calls.map
      (fun c => (c.infd, c.outfd)) = [(-1, 4), (3, -1), (-1, 1)] ∧
    ∃ r, exec_filters
        { sample_env with
          pipe_outcome := fun i => if i = 1 then PipeOutcome.pipe_fails else PipeOutcome.ok }
        sample_entry sample_filters "in.txt".toList "job".toList sample_options
        [(101, 0), (100, 0), (102, 0)] = some r :=
  ⟨by decide,
    (exec_filters_pipe_failure
      { sample_env with
        pipe_outcome := fun i => if i = 1 then PipeOutcome.pipe_fails else PipeOutcome.ok }
      sample_entry sample_filters "in.txt".toList "job".toList sample_options 1
      (by decide) (by decide) (by decide)).2.2.2 [(101, 0), (100, 0), (102, 0)]
      (by decide) (by decide)⟩

/-- Counterexample to C11 as stated: a file that is not compressed and whose detected
type is the destination type.  The chain handed to exec_filters is not empty: it holds
the filter gziptoany, and exec_filters starts one process for it. -/
theorem main_filters_uncompressed_counterexample :
    main_filters (some 7) 0 (some 7) (fun _ _ => none) ≠ MainStep.run [] ∧
    main_filters (some 7) 0 (some 7) (fun _ _ => none) = MainStep.run [GZIPFilter] ∧
    (exec_filters_spawn sample_env sample_entry [GZIPFilter] "in.txt".toList "job".toList
      sample_options).calls.length = 1 := by
  decide

/-- C11 (amended). When the detected type of the input is the requested destination
type, the filter chain that main hands to exec_filters is exactly the single
decompression filter gziptoany, whether the file is compressed or not, and the status of
main is what exec_filters returns for that chain. -/
theorem main_filters_same_type (s d : Nat) (compression : Int)
    (mimeFilter : Nat → Nat → Option (List mime_filter_t)) (htype : s = d) :
    main_filters (some s) compression (some d) mimeFilter = MainStep.run [GZIPFilter] ∧
    GZIPFilter.filter = "gziptoany".toList ∧
    ∀ (env : Env) (entry : List Bool) (filename title : CStr) (options : List cups_option_t)
      (completions : List (Int × Int)),
      main_status env entry (some s) compression (some d) mimeFilter filename title options
          completions
        = exec_filters env entry [GZIPFilter] filename title options completions := by
  subst htype
  have h : main_filters (some s) compression (some s) mimeFilter = MainStep.run [GZIPFilter] := by
    simp [main_filters, cupsArrayAdd]
  refine ⟨h, rfl, ?_⟩
  intro env entry filename title options completions
  simp only [main_status, h]

/-- Instance of C11 (amended): a compressed file and a file that is not compressed, both
of the destination type 7, get the chain that holds gziptoany alone. -/
theorem main_filters_same_type_witness :
    main_filters (some 7) 1 (some 7) (fun _ _ => some sample_filters)
      = MainStep.run [GZIPFilter] ∧
    main_filters (some 7) 0 (some 7) (fun _ _ => some sample_filters)
      = MainStep.run [GZIPFilter] :=
  ⟨(main_filters_same_type 7 7 1 (fun _ _ => some sample_filters) rfl).1,
    (main_filters_same_type 7 7 0 (fun _ _ => some sample_filters) rfl).1⟩

/-- C12. For every option list, the bytes that escape_options writes into its buffer,
the terminating NUL included, stay within the size it allocates: that size is 1 plus the
sum over the options of 2 * (length of the name + length of the value) + 2, the extent of
the writes is the length of the string returned plus one for the NUL, and the extent is at
most the size, whatever options named copies and characters to escape the list holds. -/
theorem escape_options_buffer_bound (options : List cups_option_t) :
    escape_options_bytes options
      = 1 + (options.map (fun o => 2 * (o.name.length + o.value.length) + 2)).sum ∧
    escape_options_extent options = (escape_options options).length + 1 ∧
    escape_options_extent options ≤ escape_options_bytes options := by
  have hext : escape_options_extent options = (escape_options options).length + 1 :=
    escape_loop_extent_eq options [] 0 (by simp)
  refine ⟨escape_options_bytes_eq options, hext, ?_⟩
  rw [hext, escape_options_bytes_eq]
  have h := escape_loop_length_le options []
  simp only [List.length_nil] at h
  unfold escape_options
  omega

end CupsFilter
